import Mathlib

/-!
Verification of the change-detection and history-merge core of the
airpermit-law-alert generator (scripts/law_notifier.py).

Modelling conventions of this shallow embedding:

* Python strings are Lean `String`s; character-level work happens on `String.data`.
  Python `str.isdigit` is modelled by ASCII `Char.isDigit`, and `str.strip` by
  removing the six ASCII whitespace characters at both ends.
* Python `int(digits)` on a non-empty digit string is `digitsToNat`; the digit
  strings involved have at most 8 characters, so no overflow concerns arise.
* The wall clock: `now_utc_iso_ms()` is modelled by a `String` parameter `now`
  threaded into every function that reads the clock.  One invocation of the
  merge sees a single clock value.
* `datetime.fromisoformat(...).timestamp()` is modelled by `parseIsoTimestamp`,
  which accepts the ISO-8601 subset the program itself emits
  (YYYY-MM-DD[<sep>HH:MM[:SS[.frac]]][+HH:MM[:SS]]), validates the calendar
  fields, and yields epoch microseconds as an `Int`; naive timestamps are
  interpreted as UTC (the production environment runs with a UTC local zone).
  Any parse failure yields the sort value 0, exactly as in the source.
* A Python dict entry of the history ledger is a `HistoryItem`: every field the
  merge reads or writes, each an `Option String` (`none` = key absent).  List
  elements that are not dicts are `RawVal.other` and are skipped by the merge,
  as in the source.
* The insertion-ordered Python dict used for deduplication is an association
  list: assignment to an existing key updates in place, a new key is appended.
  `list.sort` with a key function is a stable insertion sort on the same key.
-/

/-- The six ASCII whitespace characters removed by Python `str.strip()`. -/
def isPySpace (c : Char) : Bool :=
  c = ' ' || c = '\t' || c = '\n' || c = '\x0d' || c = '\x0b' || c = '\x0c'

/-- Strip leading and trailing whitespace from a character list. -/
def stripChars (l : List Char) : List Char :=
  ((l.dropWhile isPySpace).reverse.dropWhile isPySpace).reverse

/-- Python `str.strip()`. -/
def pyStrip (s : String) : String := ⟨stripChars s.data⟩

/-- The digit characters of a list, in order. -/
def digitsOf (l : List Char) : List Char := l.filter Char.isDigit

/-- Numeric value of a decimal digit string (0 for the empty string). -/
def digitsToNat (l : List Char) : Nat := l.foldl (fun a c => 10 * a + (c.toNat - 48)) 0

/-- Source `normalize_date`: keep only digits and truncate to the first 8. -/
def normalize_date (text : String) : String := ⟨(digitsOf text.data).take 8⟩

/-- Source `date_sort_value`: numeric value of the normalized date, 0 when empty. -/
def date_sort_value (text : String) : Nat := digitsToNat (normalize_date text).data

/-- Source `safe_int_yyyymmdd` (textually identical to `date_sort_value`). -/
def safe_int_yyyymmdd (text : String) : Nat := digitsToNat (normalize_date text).data

/-- Source `yyyymmdd_from_iso`: first 8 digits of an ISO string, empty on empty. -/
def yyyymmdd_from_iso (iso : String) : String :=
  if iso = "" then "" else ⟨(normalize_date iso).data.take 8⟩

/-- Source `to_iso_utc_from_yyyymmdd`.  When the normalized date does not have
exactly 8 digits the source falls back to the current clock, here `now`. -/
def to_iso_utc_from_yyyymmdd (now : String) (yyyymmdd : String) : String :=
  if (normalize_date yyyymmdd).data.length ≠ 8 then now
  else
    (⟨(normalize_date yyyymmdd).data.take 4⟩ : String) ++ "-"
      ++ (⟨((normalize_date yyyymmdd).data.drop 4).take 2⟩ : String) ++ "-"
      ++ (⟨((normalize_date yyyymmdd).data.drop 6).take 2⟩ : String) ++ "T00:00:00Z"

/-- Parse exactly `n` decimal digits from the front of `cs`. -/
def takeDigitsExact (n : Nat) (cs : List Char) : Option (Nat × List Char) :=
  let pre := cs.take n
  if pre.length = n ∧ pre.all Char.isDigit then some (digitsToNat pre, cs.drop n) else none

/-- Consume one expected character. -/
def expectChar (c : Char) : List Char → Option (List Char)
  | [] => none
  | d :: t => if d = c then some t else none

/-- Gregorian leap-year test. -/
def isLeapYear (y : Nat) : Bool := y % 4 = 0 && (y % 100 ≠ 0 || y % 400 = 0)

/-- Number of days in a month of the proleptic Gregorian calendar. -/
def daysInMonth (y mo : Nat) : Nat :=
  if mo = 2 then (if isLeapYear y then 29 else 28)
  else if mo = 4 ∨ mo = 6 ∨ mo = 9 ∨ mo = 11 then 30 else 31

/-- Days since 1970-01-01 of a civil date (Hinnant's algorithm). -/
def daysFromCivil (y mo d : Nat) : Int :=
  let yAdj : Nat := if mo ≤ 2 then y - 1 else y
  let era : Nat := yAdj / 400
  let yoe : Nat := yAdj % 400
  let mp : Nat := if mo > 2 then mo - 3 else mo + 9
  let doy : Nat := (153 * mp + 2) / 5 + (d - 1)
  let doe : Nat := yoe * 365 + yoe / 4 - yoe / 100 + doy
  (era * 146097 + doe : Int) - 719468

/-- Fractional seconds: at least one digit, scaled to microseconds. -/
def parseFrac (cs : List Char) : Option (Nat × List Char) :=
  let ds := cs.takeWhile Char.isDigit
  if ds = [] then none
  else some (digitsToNat ((ds.take 6) ++ List.replicate (6 - ds.length) '0'), cs.drop ds.length)

/-- UTC offset suffix: empty (naive, modelled as UTC) or sign HH:MM with
optional :SS, covering the whole remainder.  Result in seconds. -/
def parseOffset (cs : List Char) : Option Int :=
  match cs with
  | [] => some 0
  | sign :: rest =>
    if sign = '+' ∨ sign = '-' then do
      let (oh, r1) ← takeDigitsExact 2 rest
      let r2 ← expectChar ':' r1
      let (om, r3) ← takeDigitsExact 2 r2
      let (os, r4) ← (match r3 with
        | [] => some (0, ([] : List Char))
        | c :: t =>
          if c = ':' then do
            let (s2, r5) ← takeDigitsExact 2 t
            some (s2, r5)
          else none)
      if r4 = [] ∧ oh ≤ 23 ∧ om ≤ 59 ∧ os ≤ 59 then
        some (if sign = '-' then -((oh * 3600 + om * 60 + os : Nat) : Int)
              else ((oh * 3600 + om * 60 + os : Nat) : Int))
      else none
    else none

/-- Time of day HH:MM with optional :SS and fractional part. -/
def parseHMS (cs : List Char) : Option (Nat × Nat × Nat × Nat × List Char) := do
  let (h, r1) ← takeDigitsExact 2 cs
  let r2 ← expectChar ':' r1
  let (mi, r3) ← takeDigitsExact 2 r2
  match r3 with
  | ':' :: t => do
      let (se, r4) ← takeDigitsExact 2 t
      match r4 with
      | '.' :: t2 => do
          let (us, r5) ← parseFrac t2
          some (h, mi, se, us, r5)
      | ',' :: t2 => do
          let (us, r5) ← parseFrac t2
          some (h, mi, se, us, r5)
      | _ => some (h, mi, se, 0, r4)
  | _ => some (h, mi, 0, 0, r3)

/-- Model of `datetime.fromisoformat(...).timestamp()`: epoch microseconds.
The date part is mandatory and validated; a date-only string has time 00:00:00;
the character separating date and time is arbitrary, as in CPython. -/
def parseIsoTimestamp (cs : List Char) : Option Int := do
  let (y, r1) ← takeDigitsExact 4 cs
  let r2 ← expectChar '-' r1
  let (mo, r3) ← takeDigitsExact 2 r2
  let r4 ← expectChar '-' r3
  let (d, r5) ← takeDigitsExact 2 r4
  if 1 ≤ y ∧ 1 ≤ mo ∧ mo ≤ 12 ∧ 1 ≤ d ∧ d ≤ daysInMonth y mo then
    match r5 with
    | [] => some (daysFromCivil y mo d * 86400000000)
    | _sep :: r6 => do
        let (h, mi, se, us, r7) ← parseHMS r6
        let off ← parseOffset r7
        if h ≤ 23 ∧ mi ≤ 59 ∧ se ≤ 59 then
          some ((daysFromCivil y mo d * 86400 + ((h * 3600 + mi * 60 + se : Nat) : Int) - off)
                  * 1000000 + (us : Int))
        else none
  else none

/-- Python `s.replace("Z", "+00:00")` on every occurrence. -/
def replaceZ : List Char → List Char
  | [] => []
  | c :: t =>
    if c = 'Z' then '+' :: '0' :: '0' :: ':' :: '0' :: '0' :: replaceZ t
    else c :: replaceZ t

/-- Source `iso_sort_value`: strip, parse as ISO timestamp after replacing Z,
and fall back to 0 on the empty string or any parse failure. -/
def iso_sort_value (iso : String) : Int :=
  let s := stripChars iso.data
  if s = [] then 0
  else
    match parseIsoTimestamp (replaceZ s) with
    | some v => v
    | none => 0

/-- A history ledger dict: every field the merge reads or writes, each possibly
absent.  Fields the merge never touches ride along unchanged and are included
for fidelity of the output equality. -/
structure HistoryItem where
  status : Option String := none
  status_ko : Option String := none
  kind : Option String := none
  title : Option String := none
  date : Option String := none
  id : Option String := none
  diff_url : Option String := none
  change_summary : Option String := none
  source : Option String := none
  detected_at_utc : Option String := none
  history_key : Option String := none
deriving DecidableEq, Repr, Inhabited

/-- An element of the raw Python input lists: a dict, or any other value
(which the merge skips via its isinstance guard). -/
inductive RawVal where
  | dict (e : HistoryItem)
  | other
deriving DecidableEq, Repr

/-- The STATUS_KO lookup with default, as used for the status_ko fallback. -/
def statusKoOf (st : String) : String :=
  if st = "NEW" then "신규" else if st = "MOD" then "변경" else if st = "OK" then "유지" else "변경"

/-- Source `history_item_key`: kind, id, normalized date and title joined by
a double bar, the text fields stripped. -/
def history_item_key (e : HistoryItem) : String :=
  pyStrip (e.kind.getD "") ++ "||" ++ pyStrip (e.id.getD "") ++ "||"
    ++ normalize_date (e.date.getD "") ++ "||" ++ pyStrip (e.title.getD "")

/-- Source `normalize_detected_at_utc`.  The fallback ISO string is the clock
value `now` at the merge call sites modelled here. -/
def normalize_detected_at_utc (now : String) (e : HistoryItem) : String :=
  if pyStrip (e.detected_at_utc.getD "") ≠ "" then pyStrip (e.detected_at_utc.getD "")
  else if normalize_date (e.date.getD "") ≠ "" then
    to_iso_utc_from_yyyymmdd now (normalize_date (e.date.getD ""))
  else now

/-- Stage 1 of the merge loop normalization: canonicalize the date field. -/
def normStage1 (e : HistoryItem) : HistoryItem :=
  { e with date := some (normalize_date (e.date.getD "")) }

/-- Stage 2: default the detection timestamp (reads the already normalized
date, exactly as the source assigns item fields in order). -/
def normStage2 (now : String) (e1 : HistoryItem) : HistoryItem :=
  { e1 with detected_at_utc := some (normalize_detected_at_utc now e1) }

/-- Stage 3: compute the history key when the stored one is falsy. -/
def normStage3 (e2 : HistoryItem) : HistoryItem :=
  if e2.history_key.getD "" = "" then
    { e2 with history_key := some (history_item_key e2) } else e2

/-- Stage 4: default the localized status label when falsy. -/
def normStage4 (e3 : HistoryItem) : HistoryItem :=
  if e3.status_ko.getD "" = "" then
    { e3 with status_ko := some (statusKoOf (e3.status.getD "MOD")) } else e3

/-- The per-item normalization block at the top of the merge loop: normalize
the date, default the detection timestamp, the history key and the localized
status label. -/
def normItem (now : String) (e : HistoryItem) : HistoryItem :=
  normStage4 (normStage3 (normStage2 now (normStage1 e)))

/-- The cutoff comparator of the merge loop: numeric date, falling back to the
digits of the detection timestamp when the date digits have value 0. -/
def dateNumOf (e : HistoryItem) : Nat :=
  if safe_int_yyyymmdd (e.date.getD "") ≠ 0 then safe_int_yyyymmdd (e.date.getD "")
  else safe_int_yyyymmdd (yyyymmdd_from_iso (e.detected_at_utc.getD ""))

/-- The cutoff filter: drop an entry exactly when its comparator is nonzero
and numerically earlier than the cutoff. -/
def cutoffKeepB (cutoff : Nat) (e : HistoryItem) : Bool :=
  if dateNumOf e ≠ 0 ∧ dateNumOf e < cutoff then false else true

/-- The dict key used for deduplication: the stripped history_key, recomputed
from the item when that strips to the empty string. -/
def dkey (e : HistoryItem) : String :=
  if pyStrip (e.history_key.getD "") = "" then history_item_key e
  else pyStrip (e.history_key.getD "")

/-- The candidate an input list element contributes: skip non-dicts, normalize,
apply the cutoff filter. -/
def candOf (now : String) (cutoffN : Nat) : RawVal → Option HistoryItem
  | .other => none
  | .dict e =>
    if cutoffKeepB cutoffN (normItem now e) then some (normItem now e) else none

/-- The dedup comparison: the incoming item wins on a greater-or-equal
detection timestamp sort value. -/
def geB (n p : HistoryItem) : Bool :=
  decide (iso_sort_value (p.detected_at_utc.getD "") ≤ iso_sort_value (n.detected_at_utc.getD ""))

/-- The insertion-ordered dict of the merge, as an association list. -/
abbrev MergedDict := List (String × HistoryItem)

/-- Association list lookup (Python dict read). -/
def alistGet : MergedDict → String → Option HistoryItem
  | [], _ => none
  | (k', v) :: t, k => if k' = k then some v else alistGet t k

/-- Association list write to an existing key, keeping its position
(Python dict assignment); appends when the key is absent. -/
def alistSet : MergedDict → String → HistoryItem → MergedDict
  | [], k, v => [(k, v)]
  | (k', v') :: t, k, v => if k' = k then (k', v) :: t else (k', v') :: alistSet t k v

/-- One iteration of the merge loop body after the filter: keep the candidate
with the later detection timestamp, later input winning ties. -/
def upsert (d : MergedDict) (n : HistoryItem) : MergedDict :=
  match alistGet d (dkey n) with
  | none => d ++ [(dkey n, n)]
  | some p => if geB n p then alistSet d (dkey n) n else d

/-- Code-point order on characters, as Python compares strings. -/
def listLeB : List Char → List Char → Bool
  | [], _ => true
  | _ :: _, [] => false
  | a :: as, b :: bs =>
    if a.toNat < b.toNat then true else if b.toNat < a.toNat then false else listLeB as bs

/-- Strict version of the code-point order. -/
def listLtB (a b : List Char) : Bool := ! listLeB b a

/-- The Python sort key of the merge output: detection timestamp and date
descending, kind and title ascending (the source negates the numeric
components; the direction is encoded in the comparator here). -/
abbrev SortKey := Int × Int × List Char × List Char

/-- Sort key of an item. -/
def skey (e : HistoryItem) : SortKey :=
  (iso_sort_value (e.detected_at_utc.getD ""),
   (date_sort_value (e.date.getD "") : Int),
   (e.kind.getD "").data,
   (e.title.getD "").data)

/-- Non-strict comparator on sort keys: timestamp descending, then date
descending, then kind ascending, then title ascending. -/
def keyLeB (a b : SortKey) : Bool :=
  if a.1 = b.1 then
    if a.2.1 = b.2.1 then
      if a.2.2.1 = b.2.2.1 then listLeB a.2.2.2 b.2.2.2
      else listLtB a.2.2.1 b.2.2.1
    else decide (b.2.1 < a.2.1)
  else decide (b.1 < a.1)

/-- Item comparator derived from the sort keys. -/
def itemLeB (a b : HistoryItem) : Bool := keyLeB (skey a) (skey b)

/-- Stable insertion into a sorted list: the new element goes before the first
element it compares less-or-equal to. -/
def ordInsert (a : HistoryItem) : List HistoryItem → List HistoryItem
  | [] => [a]
  | b :: t => if itemLeB a b then a :: b :: t else b :: ordInsert a t

/-- Stable sort by the Python sort key (insertion sort; any stable sort by the
same key yields the same list). -/
def pySort (l : List HistoryItem) : List HistoryItem := l.foldr ordInsert []

/-- The normalized, cutoff-filtered candidate stream of a merge input list. -/
def candidatesOf (now : String) (cutoff : Nat) (l : List RawVal) : List HistoryItem :=
  l.filterMap (candOf now cutoff)

/-- The dedup dict built by folding the merge loop over a candidate stream. -/
def dictOf (cands : List HistoryItem) : MergedDict := cands.foldl upsert []

/-- Values of the dict, in key insertion order. -/
def dictVals (d : MergedDict) : List HistoryItem := d.map Prod.snd

/-- Keys of the dict, in insertion order. -/
def dictKeys (d : MergedDict) : List String := d.map Prod.fst

/-- Source `merge_history_items`: normalize and filter every candidate of
existing then incoming entries, deduplicate by history key keeping the later
detection timestamp, and sort the surviving dict values. -/
def merge_history_items (now : String) (existing_items incoming_items : List RawVal)
    (cutoff_yyyymmdd : String) : List HistoryItem :=
  pySort (dictVals (dictOf (candidatesOf now (safe_int_yyyymmdd cutoff_yyyymmdd)
    (existing_items ++ incoming_items))))

/-- Detection-timestamp sort value of an item, the quantity the dedup compares. -/
def isoOf (e : HistoryItem) : Int := iso_sort_value (e.detected_at_utc.getD "")

/-- One dedup step on an optional current winner. -/
def wstep (acc : Option HistoryItem) (n : HistoryItem) : Option HistoryItem :=
  match acc with
  | none => some n
  | some p => if geB n p then some n else some p

/-- The winner of a candidate subsequence, starting from an optional seed. -/
def winner1 (acc : Option HistoryItem) (l : List HistoryItem) : Option HistoryItem :=
  l.foldl wstep acc

/-- The keys a candidate stream adds to a dict already holding keys `ks`,
in first-occurrence order. -/
def freshKeys (ks : List String) : List HistoryItem → List String
  | [] => []
  | n :: t => if dkey n ∈ ks then freshKeys ks t else dkey n :: freshKeys (ks ++ [dkey n]) t

/-- Source `status_from_prev`: the prior state record is a dict (association
list) or absent; a falsy prior (absent or empty dict) yields NEW, a differing
stored status_key yields MOD, otherwise OK. -/
def status_from_prev (prev : Option (List (String × String))) (status_key : String) : String :=
  match prev with
  | none => "NEW"
  | some d =>
    if d = [] then "NEW"
    else if List.lookup "status_key" d = some status_key then "OK" else "MOD"

/-- File-system operations the persistence functions issue: whole-file write
and atomic rename-replace (Path.replace). -/
inductive FsOp where
  | write (path text : String)
  | replace (src dst : String)
deriving DecidableEq, Repr

/-- Canonical state file path. -/
def STATE_PATH : String := "data/state.json"

/-- Temporary path used by save_state (STATE_PATH with suffix .tmp). -/
def STATE_TMP_PATH : String := "data/state.tmp"

/-- Canonical history ledger path. -/
def HISTORY_PATH : String := "data/history.json"

/-- Source `save_state` as its sequence of file operations: write the
serialized state to the temporary path, then atomically replace the
canonical path with it. -/
def save_state_ops (serialized : String) : List FsOp :=
  [FsOp.write STATE_TMP_PATH serialized, FsOp.replace STATE_TMP_PATH STATE_PATH]

/-- Source `save_history` as its sequence of file operations: a single direct
write to the canonical history path. -/
def save_history_ops (serialized : String) : List FsOp :=
  [FsOp.write HISTORY_PATH serialized]

/-- A file system: path to file contents, absent files mapped to none. -/
abbrev Fs := String → Option String

/-- Update one path of a file system. -/
def setFile (fs : Fs) (p : String) (v : Option String) : Fs :=
  fun q => if q = p then v else fs q

/-- Effect of one completed operation.  A completed write installs the full
text; a replace atomically moves the source over the destination. -/
def applyOp (fs : Fs) : FsOp → Fs
  | .write p t => setFile fs p (some t)
  | .replace src dst => setFile (setFile fs dst (fs src)) src none

/-- Run a whole operation sequence to completion. -/
def runOps (fs : Fs) (ops : List FsOp) : Fs := ops.foldl applyOp fs

/-- Prefix of a string (a partially written file). -/
def strTake (n : Nat) (s : String) : String := ⟨s.data.take n⟩

/-- States reachable by crashing somewhere inside an operation sequence:
before any further op, in the middle of a write (leaving an arbitrary prefix
of the text), or after completing the head op and crashing later.  A replace
is atomic: it either has not happened or has fully happened. -/
inductive CrashedDuring : Fs → List FsOp → Fs → Prop where
  | here (fs : Fs) (ops : List FsOp) : CrashedDuring fs ops fs
  | midWrite (fs : Fs) (p t : String) (rest : List FsOp) (k : Nat) :
      CrashedDuring fs (FsOp.write p t :: rest) (setFile fs p (some (strTake k t)))
  | next (fs : Fs) (op : FsOp) (rest : List FsOp) (fs' : Fs) :
      CrashedDuring (applyOp fs op) rest fs' → CrashedDuring fs (op :: rest) fs'

/-- JSON values, for the load-side persistence model. -/
inductive JVal where
  | null
  | bool (b : Bool)
  | num (n : Int)
  | str (s : String)
  | arr (items : List JVal)
  | obj (fields : List (String × JVal))

/-- Lookup in a JSON object (Python dict get). -/
def jGet : List (String × JVal) → String → Option JVal
  | [], _ => none
  | (k', v) :: t, k => if k' = k then some v else jGet t k

/-- Python dict setdefault: keep an existing key, append a missing one. -/
def jSetdefault (fields : List (String × JVal)) (k : String) (v : JVal) :
    List (String × JVal) :=
  match jGet fields k with
  | some _ => fields
  | none => fields ++ [(k, v)]

/-- The empty initialized state structure of load_state. -/
def emptyState : JVal :=
  .obj [("laws", .obj []), ("admruls", .obj []), ("bills", .obj []), ("last_run", .null)]

/-- The default history structure of load_history. -/
def emptyHistory : JVal := .obj [("seeded_from", .null), ("items", .arr [])]

/-- An on-disk condition for one file: absent, or present but not JSON
(including the empty file), or present and parsed to a JSON value. -/
abbrev OnDisk := Option (Option JVal)

/-- Source `load_state`: absent file or unparseable content yields the empty
initialized structure; parsed content gets the three kind maps defaulted via
setdefault.  Python calls setdefault on whatever json.loads returned, so a
parsed non-object raises AttributeError, modelled as the error case. -/
def load_state (onDisk : OnDisk) : Except String JVal :=
  match onDisk with
  | none => .ok emptyState
  | some none => .ok emptyState
  | some (some v) =>
    match v with
    | .obj fields =>
      .ok (.obj (jSetdefault (jSetdefault (jSetdefault fields "laws" (.obj []))
            "admruls" (.obj [])) "bills" (.obj [])))
    | _ => .error "AttributeError"

/-- Source `load_history`: read the history file if it exists, else the legacy
changelog file; empty or unparseable text yields the default; a parsed list is
wrapped as items; a parsed non-dict yields the default; a dict contributes its
seeded_from and its items when they form a list. -/
def load_history (histOnDisk changelogOnDisk : OnDisk) : JVal :=
  let src : Option (Option JVal) :=
    match histOnDisk with
    | some v => some v
    | none => changelogOnDisk
  match src with
  | none => emptyHistory
  | some none => emptyHistory
  | some (some data) =>
    match data with
    | .arr l => .obj [("seeded_from", .null), ("items", .arr l)]
    | .obj fields =>
      let items : JVal :=
        match jGet fields "items" with
        | some (.arr l) => .arr l
        | some _ => .arr []
        | none => .arr []
      .obj [("seeded_from", (jGet fields "seeded_from").getD .null), ("items", items)]
    | _ => emptyHistory

/-! ### Concrete sample data used by witnesses and counterexamples -/

/-- A fixed, realistic clock value. -/
def nowA : String := "2025-01-01T00:00:00.000+00:00"

/-- A second, later clock value. -/
def nowB : String := "2025-02-02T00:00:00.000+00:00"

/-- A ledger entry carrying a whitespace-only history_key. -/
def sampleKeyA : HistoryItem :=
  { kind := some "A"
    id := some "1"
    title := some "x"
    date := some "20240101"
    detected_at_utc := some "2024-01-02T00:00:00Z"
    status := some "MOD"
    history_key := some "   " }

/-- Like sampleKeyA but a different kind, hence a different recomputed key. -/
def sampleKeyB : HistoryItem := { sampleKeyA with kind := some "B" }

/-- A NEW-status entry. -/
def sampleNewA : HistoryItem :=
  { kind := some "k"
    id := some "1"
    title := some "t"
    date := some "20240101"
    detected_at_utc := some "2024-01-02T00:00:00Z"
    status := some "NEW" }

/-- The same identity and timestamp as sampleNewA with MOD status: same
history key, same sort key, a different dict value. -/
def sampleModB : HistoryItem := { sampleNewA with status := some "MOD" }

/-- A dict with no fields at all. -/
def sampleBlank : HistoryItem := {}

/-- An entry with no date digits and an unparseable detection timestamp. -/
def sampleJunk : HistoryItem :=
  { kind := some "k"
    id := some "1"
    title := some "t"
    detected_at_utc := some "junk" }

/-- A file system holding an old history ledger. -/
def sampleFs : Fs := fun p => if p = HISTORY_PATH then some "ledger-old" else none

/-- The file system left by crashing three characters into the history write. -/
def sampleCrashFs : Fs := setFile sampleFs HISTORY_PATH (some (strTake 3 "ledger-new"))

/-! ### Generic helper lemmas -/

theorem mem_stripChars {c : Char} {l : List Char} (h : c ∈ stripChars l) : c ∈ l := by
  unfold stripChars at h
  have h1 : c ∈ (l.dropWhile isPySpace).reverse.dropWhile isPySpace := List.mem_reverse.mp h
  have h2 : c ∈ (l.dropWhile isPySpace).reverse := (List.dropWhile_sublist _).subset h1
  exact (List.dropWhile_sublist _).subset (List.mem_reverse.mp h2)

theorem normalize_date_of_no_digits {s : String} (h : ∀ c ∈ s.data, c.isDigit = false) :
    normalize_date s = "" := by
  have hf : s.data.filter Char.isDigit = [] := by
    rw [List.filter_eq_nil_iff]
    intro a ha
    simp [h a ha]
  simp [normalize_date, digitsOf, hf]

theorem date_sort_value_of_no_digits {s : String} (h : ∀ c ∈ s.data, c.isDigit = false) :
    date_sort_value s = 0 := by
  have := normalize_date_of_no_digits h
  simp [date_sort_value, this]
  rfl

theorem safe_int_eq_date_sort_value (s : String) : safe_int_yyyymmdd s = date_sort_value s := rfl

theorem normalize_date_length_le (s : String) : (normalize_date s).length ≤ 8 := by
  simp only [normalize_date, String.length]
  calc ((digitsOf s.data).take 8).length ≤ 8 := by
        rw [List.length_take]; exact min_le_left _ _

theorem normalize_date_all_digits (s : String) : ∀ c ∈ (normalize_date s).data, c.isDigit = true := by
  intro c hc
  simp only [normalize_date] at hc
  have : c ∈ digitsOf s.data := (List.take_sublist _ _).subset hc
  exact (List.mem_filter.mp this).2

/-! ### Claim C7: date normalization -/

/-- C7 (corrected): normalize_date keeps only digits and truncates to AT MOST
8 characters; it does not pad, so the output length can be anywhere between 0
and 8.  A digit-free input yields the empty string, whose sort value is 0. -/
theorem C7_normalize_date_behavior : ∀ s : String,
    ((normalize_date s).length ≤ 8 ∧ ∀ c ∈ (normalize_date s).data, c.isDigit = true) ∧
    ((∀ c ∈ s.data, c.isDigit = false) → normalize_date s = "" ∧ date_sort_value s = 0) := by
  intro s
  refine ⟨⟨normalize_date_length_le s, normalize_date_all_digits s⟩, ?_⟩
  intro h
  exact ⟨normalize_date_of_no_digits h, date_sort_value_of_no_digits h⟩

/-- C7 witness: a digit-free string maps to the empty date and sort value 0. -/
theorem C7_normalize_date_behavior_witness :
    normalize_date "no digits" = "" ∧ date_sort_value "no digits" = 0 :=
  (C7_normalize_date_behavior "no digits").2 (by decide)

/-- C7 counterexample: the claim says the digits are truncated or padded to
exactly 8 characters (empty only when no digit is present), but a 3-digit
input stays 3 digits long. -/
theorem C7_counterexample :
    normalize_date "123" = "123" ∧
    ¬((normalize_date "123").length = 8 ∨ normalize_date "123" = "") := by decide

/-! ### Claim C6: the status classifier -/

/-- C6 (corrected): the classifier returns NEW exactly on a falsy prior, that
is an absent OR an empty prior record dict; MOD exactly on a nonempty prior
whose stored status_key differs from the current fingerprint (a missing stored
fingerprint counts as differing); OK exactly on a nonempty prior whose stored
status_key equals the current fingerprint. -/
theorem C6_status_classifier : ∀ (prev : Option (List (String × String))) (k : String),
    (status_from_prev prev k = "NEW" ↔ prev = none ∨ prev = some []) ∧
    (status_from_prev prev k = "MOD" ↔
      ∃ d, prev = some d ∧ d ≠ [] ∧ ¬ List.lookup "status_key" d = some k) ∧
    (status_from_prev prev k = "OK" ↔
      ∃ d, prev = some d ∧ d ≠ [] ∧ List.lookup "status_key" d = some k) := by
  intro prev k
  rcases prev with _ | d
  · refine ⟨by simp [status_from_prev], by simp [status_from_prev], by simp [status_from_prev]⟩
  · by_cases hd : d = []
    · subst hd
      refine ⟨by simp [status_from_prev], by simp [status_from_prev], by simp [status_from_prev]⟩
    · by_cases hk : List.lookup "status_key" d = some k
      · refine ⟨?_, ?_, ?_⟩ <;> simp [status_from_prev, hd, hk]
      · refine ⟨?_, ?_, ?_⟩ <;> simp [status_from_prev, hd, hk]

/-- C6 counterexample: a present but empty prior record is classified NEW,
although the claim reserves NEW exactly for an absent prior (an existing prior
with a differing fingerprint should be MOD). -/
theorem C6_counterexample :
    status_from_prev (some []) "key" = "NEW" ∧
    some ([] : List (String × String)) ≠ none := ⟨rfl, by simp⟩

/-! ### Claim C9: the load side of the state store -/

/-- C9 (code bug): an absent or unparseable state or ledger file does load as
the documented empty structures, but a state file that parses to a JSON value
that is not an object (for example an array) makes load_state call setdefault
on a non-dict, raising AttributeError, contradicting the never-raises design. -/
theorem C9_load_state_nonobject_raises :
    load_state none = .ok emptyState ∧
    load_state (some none) = .ok emptyState ∧
    load_history none none = emptyHistory ∧
    load_history (some none) (some (some (.arr []))) = emptyHistory ∧
    load_state (some (some (.arr []))) = .error "AttributeError" :=
  ⟨rfl, rfl, rfl, rfl, rfl⟩

/-! ### Claim C8: crash safety of the persistence operations -/

/-- C8 (corrected): save_state is crash-safe: crashing anywhere inside its
write-to-temporary-then-atomic-replace sequence leaves the canonical state
path holding its previous content or the fully written new content, never a
partial write.  save_history, by contrast, is a single direct write to the
canonical path (second conjunct), with no temporary file involved. -/
theorem C8_save_state_crash_safe : ∀ (fs : Fs) (txt : String) (fs2 : Fs),
    CrashedDuring fs (save_state_ops txt) fs2 →
    (fs2 STATE_PATH = fs STATE_PATH ∨ fs2 STATE_PATH = some txt) ∧
    save_history_ops txt = [FsOp.write HISTORY_PATH txt] := by
  intro fs txt fs2 h
  refine ⟨?_, rfl⟩
  have hne : STATE_PATH ≠ STATE_TMP_PATH := by decide
  cases h with
  | here => exact Or.inl rfl
  | midWrite _ _ _ _ k =>
      left
      simp [setFile, hne]
  | next _ _ _ _ h1 =>
      cases h1 with
      | here =>
          left
          simp [applyOp, setFile, hne]
      | next _ _ _ _ h2 =>
          cases h2 with
          | here =>
              right
              simp [applyOp, setFile, hne]

/-- C8 witness: the crash-safety theorem applied to the trivial crash point
before any operation, on a concrete file system. -/
theorem C8_save_state_crash_safe_witness :
    (sampleFs STATE_PATH = sampleFs STATE_PATH ∨ sampleFs STATE_PATH = some "ledger-new") ∧
    save_history_ops "ledger-new" = [FsOp.write HISTORY_PATH "ledger-new"] :=
  C8_save_state_crash_safe sampleFs "ledger-new" sampleFs (CrashedDuring.here _ _)

/-- C8 counterexample: interrupting save_history mid-write leaves the
canonical history path holding a strict prefix of the new content, which is
neither the previously valid content nor the new content, so the history
persistence is not atomic as claimed. -/
theorem C8_counterexample :
    CrashedDuring sampleFs (save_history_ops "ledger-new") sampleCrashFs ∧
    sampleCrashFs HISTORY_PATH ≠ sampleFs HISTORY_PATH ∧
    sampleCrashFs HISTORY_PATH ≠ some "ledger-new" := by
  refine ⟨CrashedDuring.midWrite sampleFs HISTORY_PATH "ledger-new" [] 3, by decide, by decide⟩

/-! ### Counterexamples to the merge claims C2, C3, C4, C5 as stated -/

/-- C2 counterexample: two entries whose stored history_key is the whitespace
string survive the same merge together, because the dict key falls back to the
recomputed per-item key while the stored field stays whitespace; the merged
output hence contains two entries sharing one history_key value. -/
theorem C2_counterexample :
    (merge_history_items nowA [] [.dict sampleKeyA, .dict sampleKeyB] "20210101").map
      (fun e => e.history_key) = [some "   ", some "   "] := by decide

/-- C3 counterexample: an entry whose date is absent and whose detection
timestamp has no digits is RETAINED by a merge with a positive cutoff, even
though the claim says that when the date is empty the detection timestamp date
component (here 0) is used as the comparator, which is below the cutoff and
should drop the entry. -/
theorem C3_counterexample :
    merge_history_items nowA [] [.dict sampleJunk] "20210101" = [normItem nowA sampleJunk] ∧
    normalize_date ((normItem nowA sampleJunk).date.getD "") = "" ∧
    safe_int_yyyymmdd (yyyymmdd_from_iso ((normItem nowA sampleJunk).detected_at_utc.getD ""))
      = 0 ∧
    0 < safe_int_yyyymmdd "20210101" := by decide

/-- C4 counterexample: swapping the two input lists changes the output.  The
two entries share the history key and the detection timestamp but differ in
status; the dedup tie goes to the later-processed entry, so the merge is not
invariant under reversing the input order. -/
theorem C4_counterexample :
    merge_history_items nowA [.dict sampleNewA] [.dict sampleModB] "20210101" ≠
    merge_history_items nowA [.dict sampleModB] [.dict sampleNewA] "20210101" := by decide

/-- C5 counterexample: the merge output depends on the clock.  An entry with
no detection timestamp and no usable date receives the current clock value as
its detection timestamp, so the same three arguments yield different outputs
at different clock instants. -/
theorem C5_counterexample :
    merge_history_items nowA [] [.dict sampleBlank] "20210101" ≠
    merge_history_items nowB [] [.dict sampleBlank] "20210101" := by decide

/-! ### The code-point order on character lists -/

theorem char_eq_of_toNat_eq {a b : Char} (h : a.toNat = b.toNat) : a = b :=
  Char.ext (UInt32.ext (by exact_mod_cast h))

theorem listLeB_total : ∀ a b : List Char, listLeB a b = true ∨ listLeB b a = true
  | [], _ => Or.inl rfl
  | _ :: _, [] => Or.inr rfl
  | a :: as, b :: bs => by
      by_cases h1 : a.toNat < b.toNat
      · left; simp [listLeB, h1]
      · by_cases h2 : b.toNat < a.toNat
        · right; simp [listLeB, h1, h2]
        · rcases listLeB_total as bs with h | h
          · left; simp [listLeB, h1, h2, h]
          · right; simp [listLeB, h1, h2, h]

theorem listLeB_trans : ∀ a b c : List Char,
    listLeB a b = true → listLeB b c = true → listLeB a c = true
  | [], _, _, _, _ => rfl
  | _ :: _, [], _, h, _ => by simp [listLeB] at h
  | _ :: _, _ :: _, [], _, h => by simp [listLeB] at h
  | a :: as, b :: bs, c :: cs, h1, h2 => by
      simp only [listLeB] at h1 h2 ⊢
      rcases Nat.lt_trichotomy a.toNat b.toNat with hab | hab | hab
      · rcases Nat.lt_trichotomy b.toNat c.toNat with hbc | hbc | hbc
        · simp [Nat.lt_trans hab hbc]
        · simp [hbc ▸ hab]
        · simp [Nat.lt_asymm hbc, hbc] at h2
      · rcases Nat.lt_trichotomy b.toNat c.toNat with hbc | hbc | hbc
        · simp [hab ▸ hbc]
        · have h1' : listLeB as bs = true := by
            simpa [show ¬ a.toNat < b.toNat by omega, show ¬ b.toNat < a.toNat by omega] using h1
          have h2' : listLeB bs cs = true := by
            simpa [show ¬ b.toNat < c.toNat by omega, show ¬ c.toNat < b.toNat by omega] using h2
          simp [show ¬ a.toNat < c.toNat by omega, show ¬ c.toNat < a.toNat by omega]
          exact listLeB_trans as bs cs h1' h2'
        · simp [Nat.lt_asymm hbc, hbc] at h2
      · simp [Nat.lt_asymm hab, hab] at h1

theorem listLeB_antisymm : ∀ a b : List Char,
    listLeB a b = true → listLeB b a = true → a = b
  | [], [], _, _ => rfl
  | [], _ :: _, _, h => by simp [listLeB] at h
  | _ :: _, [], h, _ => by simp [listLeB] at h
  | a :: as, b :: bs, h1, h2 => by
      simp only [listLeB] at h1 h2
      rcases Nat.lt_trichotomy a.toNat b.toNat with hab | hab | hab
      · simp [Nat.lt_asymm hab, hab] at h2
      · have h1' : listLeB as bs = true := by
          simpa [show ¬ a.toNat < b.toNat by omega, show ¬ b.toNat < a.toNat by omega] using h1
        have h2' : listLeB bs as = true := by
          simpa [show ¬ a.toNat < b.toNat by omega, show ¬ b.toNat < a.toNat by omega] using h2
        rw [listLeB_antisymm as bs h1' h2', char_eq_of_toNat_eq hab]
      · simp [Nat.lt_asymm hab, hab] at h1

theorem listLeB_refl (a : List Char) : listLeB a a = true := by
  rcases listLeB_total a a with h | h <;> exact h

theorem listLtB_of_not_le {a b : List Char} (h : listLeB a b ≠ true) : listLtB b a = true := by
  cases hx : listLeB a b
  · simp [listLtB, hx]
  · exact absurd hx h

/-! ### The merge sort-key comparator -/

theorem keyLeB_refl (a : SortKey) : keyLeB a a = true := by
  rcases a with ⟨a1, a2, a3, a4⟩
  simp [keyLeB, listLeB_refl]

theorem keyLeB_total (a b : SortKey) : keyLeB a b = true ∨ keyLeB b a = true := by
  rcases a with ⟨a1, a2, a3, a4⟩
  rcases b with ⟨b1, b2, b3, b4⟩
  by_cases h1 : a1 = b1
  · subst h1
    by_cases h2 : a2 = b2
    · subst h2
      by_cases h3 : a3 = b3
      · subst h3
        rcases listLeB_total a4 b4 with h | h
        · left; simp [keyLeB, h]
        · right; simp [keyLeB, h]
      · by_cases hab : listLeB a3 b3 = true
        · by_cases hba : listLeB b3 a3 = true
          · exact absurd (listLeB_antisymm _ _ hab hba) h3
          · left; simp [keyLeB, h3, Ne.symm h3, listLtB_of_not_le hba]
        · right; simp [keyLeB, h3, Ne.symm h3, listLtB_of_not_le hab]
    · rcases lt_or_gt_of_ne (show a2 ≠ b2 from h2) with h | h
      · right; simp [keyLeB, h2, Ne.symm h2, h]
      · left; simp [keyLeB, h2, Ne.symm h2, h]
  · rcases lt_or_gt_of_ne (show a1 ≠ b1 from h1) with h | h
    · right; simp [keyLeB, h1, Ne.symm h1, h]
    · left; simp [keyLeB, h1, Ne.symm h1, h]

theorem listLtB_ne {a b : List Char} (h : listLtB a b = true) : a ≠ b := by
  intro he
  subst he
  simp [listLtB, listLeB_refl a] at h

theorem listLeB_of_ltB {a b : List Char} (h : listLtB a b = true) : listLeB a b = true := by
  have hba : listLeB b a = false := by
    cases hx : listLeB b a
    · rfl
    · simp [listLtB, hx] at h
  rcases listLeB_total a b with h2 | h2
  · exact h2
  · rw [h2] at hba; cases hba

theorem listLtB_trans {a b c : List Char} (h1 : listLtB a b = true) (h2 : listLtB b c = true) :
    listLtB a c = true := by
  cases hx : listLeB c a
  · simp [listLtB, hx]
  · have hab : listLeB a b = true := listLeB_of_ltB h1
    have hcb : listLeB c b = true := listLeB_trans c a b hx hab
    simp [listLtB, hcb] at h2

theorem keyLeB_iff (a b : SortKey) : keyLeB a b = true ↔
    (b.1 < a.1 ∨ (a.1 = b.1 ∧ (b.2.1 < a.2.1 ∨ (a.2.1 = b.2.1 ∧
      (listLtB a.2.2.1 b.2.2.1 = true ∨ (a.2.2.1 = b.2.2.1 ∧
        listLeB a.2.2.2 b.2.2.2 = true)))))) := by
  rcases a with ⟨a1, a2, a3, a4⟩
  rcases b with ⟨b1, b2, b3, b4⟩
  simp only [keyLeB]
  by_cases e1 : a1 = b1
  · subst e1
    by_cases e2 : a2 = b2
    · subst e2
      by_cases e3 : a3 = b3
      · subst e3
        simp [lt_irrefl, listLtB, listLeB_refl]
      · simp [e3, lt_irrefl]
    · simp [e2, lt_irrefl]
  · simp [e1]

theorem listLtB_asymm {a b : List Char} (h1 : listLtB a b = true) (h2 : listLtB b a = true) :
    False :=
  listLtB_ne h1 (listLeB_antisymm a b (listLeB_of_ltB h1) (listLeB_of_ltB h2))

theorem keyLeB_trans {a b c : SortKey} (h1 : keyLeB a b = true) (h2 : keyLeB b c = true) :
    keyLeB a c = true := by
  rw [keyLeB_iff] at h1 h2 ⊢
  rcases h1 with l1 | ⟨e1, h1⟩
  · rcases h2 with l2 | ⟨e2, h2⟩
    · exact Or.inl (by omega)
    · exact Or.inl (by omega)
  · rcases h2 with l2 | ⟨e2, h2⟩
    · exact Or.inl (by omega)
    · refine Or.inr ⟨by omega, ?_⟩
      rcases h1 with l1 | ⟨f1, h1⟩
      · rcases h2 with l2 | ⟨f2, h2⟩
        · exact Or.inl (by omega)
        · exact Or.inl (by omega)
      · rcases h2 with l2 | ⟨f2, h2⟩
        · exact Or.inl (by omega)
        · refine Or.inr ⟨by omega, ?_⟩
          rcases h1 with l1 | ⟨g1, h1⟩
          · rcases h2 with l2 | ⟨g2, h2⟩
            · exact Or.inl (listLtB_trans l1 l2)
            · exact Or.inl (g2 ▸ l1)
          · rcases h2 with l2 | ⟨g2, h2⟩
            · exact Or.inl (g1 ▸ l2)
            · exact Or.inr ⟨g1.trans g2, listLeB_trans _ _ _ h1 h2⟩

theorem keyLeB_antisymm {a b : SortKey} (h1 : keyLeB a b = true) (h2 : keyLeB b a = true) :
    a = b := by
  rw [keyLeB_iff] at h1 h2
  rcases a with ⟨a1, a2, a3, a4⟩
  rcases b with ⟨b1, b2, b3, b4⟩
  simp only at h1 h2
  rcases h1 with l1 | ⟨e1, h1⟩
  · rcases h2 with l2 | ⟨e2, h2⟩
    · exact absurd l1 (by omega)
    · exact absurd l1 (by omega)
  · rcases h2 with l2 | ⟨e2, h2⟩
    · exact absurd l2 (by omega)
    · rcases h1 with l1 | ⟨f1, h1⟩
      · rcases h2 with l2 | ⟨f2, h2⟩
        · exact absurd l1 (by omega)
        · exact absurd l1 (by omega)
      · rcases h2 with l2 | ⟨f2, h2⟩
        · exact absurd l2 (by omega)
        · rcases h1 with l1 | ⟨g1, h1⟩
          · rcases h2 with l2 | ⟨g2, h2⟩
            · exact absurd (listLtB_asymm l1 l2) (by simp)
            · exact absurd l1 (g2 ▸ fun hh => listLtB_ne hh rfl)
          · rcases h2 with l2 | ⟨g2, h2⟩
            · exact absurd l2 (g1 ▸ fun hh => listLtB_ne hh rfl)
            · have h4 := listLeB_antisymm a4 b4 h1 h2
              simp [Prod.ext_iff]
              exact ⟨e1, f1, g1, h4⟩

/-! ### The stable sort of the merge output -/

theorem itemLeB_total (a b : HistoryItem) : itemLeB a b = true ∨ itemLeB b a = true :=
  keyLeB_total _ _

theorem itemLeB_trans {a b c : HistoryItem} (h1 : itemLeB a b = true)
    (h2 : itemLeB b c = true) : itemLeB a c = true := keyLeB_trans h1 h2

theorem itemLeB_of_skey_eq {a b : HistoryItem} (h : skey a = skey b) : itemLeB a b = true := by
  unfold itemLeB
  rw [h]
  exact keyLeB_refl _

theorem skey_eq_of_itemLeB_both {a b : HistoryItem} (h1 : itemLeB a b = true)
    (h2 : itemLeB b a = true) : skey a = skey b := keyLeB_antisymm h1 h2

theorem mem_ordInsert {x a : HistoryItem} : ∀ {l : List HistoryItem},
    x ∈ ordInsert a l ↔ x = a ∨ x ∈ l
  | [] => by simp [ordInsert]
  | b :: t => by
    by_cases h : itemLeB a b = true
    · simp [ordInsert, h]
    · simp only [ordInsert, if_neg h, List.mem_cons, @mem_ordInsert x a t]
      tauto

theorem ordInsert_perm (a : HistoryItem) : ∀ l, (ordInsert a l).Perm (a :: l)
  | [] => List.Perm.refl _
  | b :: t => by
    by_cases h : itemLeB a b = true
    · simp [ordInsert, h]
    · simp only [ordInsert, if_neg h]
      exact (List.Perm.cons b (ordInsert_perm a t)).trans (List.Perm.swap a b t)

theorem pySort_perm (l : List HistoryItem) : (pySort l).Perm l := by
  induction l with
  | nil => exact List.Perm.refl _
  | cons x t ih => exact (ordInsert_perm x (pySort t)).trans (List.Perm.cons x ih)

theorem mem_pySort {x : HistoryItem} {l : List HistoryItem} : x ∈ pySort l ↔ x ∈ l :=
  (pySort_perm l).mem_iff

theorem pairwise_ordInsert (a : HistoryItem) : ∀ l : List HistoryItem,
    List.Pairwise (fun x y => itemLeB x y = true) l →
    List.Pairwise (fun x y => itemLeB x y = true) (ordInsert a l)
  | [], _ => by simp [ordInsert]
  | b :: t, h => by
    rcases List.pairwise_cons.mp h with ⟨hbt, ht⟩
    by_cases hab : itemLeB a b = true
    · simp only [ordInsert, if_pos hab]
      refine List.pairwise_cons.mpr ⟨?_, h⟩
      intro y hy
      rcases List.mem_cons.mp hy with rfl | hy2
      · exact hab
      · exact itemLeB_trans hab (hbt y hy2)
    · simp only [ordInsert, if_neg hab]
      refine List.pairwise_cons.mpr ⟨?_, pairwise_ordInsert a t ht⟩
      intro y hy
      rcases mem_ordInsert.mp hy with rfl | hy2
      · rcases itemLeB_total y b with h2 | h2
        · exact absurd h2 hab
        · exact h2
      · exact hbt y hy2

theorem pySort_sorted (l : List HistoryItem) :
    List.Pairwise (fun x y => itemLeB x y = true) (pySort l) := by
  induction l with
  | nil => simp [pySort]
  | cons x t ih => exact pairwise_ordInsert x (pySort t) ih

theorem filter_ordInsert_pos {g : SortKey} {a : HistoryItem} (ha : skey a = g) :
    ∀ l : List HistoryItem,
      (ordInsert a l).filter (fun e => decide (skey e = g)) =
        a :: l.filter (fun e => decide (skey e = g))
  | [] => by simp [ordInsert, ha]
  | b :: t => by
    by_cases hab : itemLeB a b = true
    · simp [ordInsert, hab, ha]
    · have hbg : ¬ skey b = g := by
        intro hbg
        exact hab (itemLeB_of_skey_eq (ha.trans hbg.symm))
      simp only [ordInsert, if_neg hab, List.filter_cons]
      simp only [hbg, decide_False]
      simpa [hbg] using filter_ordInsert_pos ha t

theorem filter_ordInsert_neg {g : SortKey} {a : HistoryItem} (ha : ¬ skey a = g) :
    ∀ l : List HistoryItem,
      (ordInsert a l).filter (fun e => decide (skey e = g)) =
        l.filter (fun e => decide (skey e = g))
  | [] => by simp [ordInsert, ha]
  | b :: t => by
    by_cases hab : itemLeB a b = true
    · simp [ordInsert, hab, ha]
    · by_cases hbg : skey b = g
      · simp only [ordInsert, if_neg hab, List.filter_cons, hbg]
        simp [filter_ordInsert_neg ha t, hbg]
      · simp only [ordInsert, if_neg hab, List.filter_cons]
        simp [filter_ordInsert_neg ha t, hbg]

theorem pySort_filter_class (g : SortKey) (l : List HistoryItem) :
    (pySort l).filter (fun e => decide (skey e = g)) =
      l.filter (fun e => decide (skey e = g)) := by
  induction l with
  | nil => rfl
  | cons x t ih =>
    show (ordInsert x (pySort t)).filter _ = _
    by_cases hx : skey x = g
    · rw [filter_ordInsert_pos hx (pySort t), ih]
      simp [hx]
    · rw [filter_ordInsert_neg hx (pySort t), ih]
      simp [hx]

theorem sorted_eq_of_class_filters : ∀ (l1 l2 : List HistoryItem),
    List.Pairwise (fun x y => itemLeB x y = true) l1 →
    List.Pairwise (fun x y => itemLeB x y = true) l2 →
    (∀ g : SortKey, l1.filter (fun e => decide (skey e = g)) =
      l2.filter (fun e => decide (skey e = g))) →
    l1 = l2
  | [], [], _, _, _ => rfl
  | [], b :: t2, _, _, hf => by
    have := hf (skey b)
    simp at this
  | a :: t1, [], _, _, hf => by
    have := hf (skey a)
    simp at this
  | a :: t1, b :: t2, h1, h2, hf => by
    rcases List.pairwise_cons.mp h1 with ⟨hat1, ht1⟩
    rcases List.pairwise_cons.mp h2 with ⟨hbt2, ht2⟩
    have hab : a = b := by
      by_cases hsk : skey b = skey a
      · have hfa := hf (skey a)
        simp only [List.filter_cons, decide_eq_true_eq] at hfa
        rw [if_pos (by simp), if_pos (by simp [hsk])] at hfa
        exact (List.cons.injEq _ _ _ _ ▸ hfa).1.symm ▸ rfl
      · exfalso
        have hfa := hf (skey a)
        simp only [List.filter_cons] at hfa
        rw [if_pos (by simp), if_neg (by simp [hsk])] at hfa
        have hamem : a ∈ t2 := by
          have : a ∈ t2.filter (fun e => decide (skey e = skey a)) := by
            rw [← hfa]; exact List.mem_cons_self _ _
          exact (List.mem_filter.mp this).1
        have hba : itemLeB b a = true := hbt2 a hamem
        have hfb := hf (skey b)
        simp only [List.filter_cons] at hfb
        rw [if_neg (by simp; intro hh; exact hsk (hh ▸ rfl)), if_pos (by simp)] at hfb
        have hbmem : b ∈ t1 := by
          have : b ∈ t1.filter (fun e => decide (skey e = skey b)) := by
            rw [hfb]; exact List.mem_cons_self _ _
          exact (List.mem_filter.mp this).1
        have hab2 : itemLeB a b = true := hat1 b hbmem
        exact hsk (skey_eq_of_itemLeB_both hba hab2)
    subst hab
    have htl : t1 = t2 := by
      apply sorted_eq_of_class_filters t1 t2 ht1 ht2
      intro g
      have hfg := hf g
      by_cases hg : skey a = g
      · simp only [List.filter_cons] at hfg
        rw [if_pos (by simp [hg]), if_pos (by simp [hg])] at hfg
        exact (List.cons.injEq _ _ _ _ ▸ hfg).2
      · simp only [List.filter_cons] at hfg
        rw [if_neg (by simp [hg]), if_neg (by simp [hg])] at hfg
        exact hfg
    rw [htl]

/-! ### Dict (association list) lemmas -/

theorem alistGet_eq_none_iff : ∀ {d : MergedDict} {k : String},
    alistGet d k = none ↔ k ∉ dictKeys d
  | [], k => by simp [alistGet, dictKeys]
  | (k', v) :: t, k => by
    by_cases h : k' = k
    · subst h
      simp [alistGet, dictKeys]
    · simp only [alistGet, if_neg h, dictKeys, List.map_cons, List.mem_cons]
      rw [alistGet_eq_none_iff]
      simp [dictKeys, Ne.symm h]

theorem alistGet_append_left : ∀ {d1 : MergedDict} (d2 : MergedDict) {k : String} {v : HistoryItem},
    alistGet d1 k = some v → alistGet (d1 ++ d2) k = some v
  | [], _, _, _, h => by simp [alistGet] at h
  | (k', v') :: t, d2, k, v, h => by
    by_cases hk : k' = k
    · simp_all [alistGet]
    · simp only [alistGet, if_neg hk] at h
      simp only [List.cons_append, alistGet, if_neg hk]
      exact alistGet_append_left d2 h

theorem alistGet_append_right : ∀ {d1 : MergedDict} (d2 : MergedDict) {k : String},
    alistGet d1 k = none → alistGet (d1 ++ d2) k = alistGet d2 k
  | [], _, _, _ => rfl
  | (k', v') :: t, d2, k, h => by
    by_cases hk : k' = k
    · simp [alistGet, hk] at h
    · simp only [alistGet, if_neg hk] at h
      simp only [List.cons_append, alistGet, if_neg hk]
      exact alistGet_append_right d2 h

theorem alistGet_alistSet_self : ∀ {d : MergedDict} {k : String} (v : HistoryItem),
    alistGet (alistSet d k v) k = some v
  | [], k, v => by simp [alistSet, alistGet]
  | (k', v') :: t, k, v => by
    by_cases h : k' = k
    · simp [alistSet, alistGet, h]
    · simp only [alistSet, if_neg h, alistGet, if_neg h]
      exact alistGet_alistSet_self v

theorem alistGet_alistSet_ne : ∀ {d : MergedDict} {k k2 : String} (v : HistoryItem),
    k2 ≠ k → alistGet (alistSet d k v) k2 = alistGet d k2
  | [], k, k2, v, h => by simp [alistSet, alistGet, Ne.symm h]
  | (k', v') :: t, k, k2, v, h => by
    by_cases hk : k' = k
    · subst hk
      simp [alistSet, alistGet, Ne.symm h]
    · simp only [alistSet, if_neg hk, alistGet]
      by_cases h2 : k' = k2
      · simp [h2]
      · simp only [if_neg h2]
        exact alistGet_alistSet_ne v h

theorem dictKeys_alistSet : ∀ {d : MergedDict} {k : String} (v : HistoryItem),
    k ∈ dictKeys d → dictKeys (alistSet d k v) = dictKeys d
  | [], k, v, h => by simp [dictKeys] at h
  | (k', v') :: t, k, v, h => by
    by_cases hk : k' = k
    · simp [alistSet, hk, dictKeys]
    · have : k ∈ dictKeys t := by
        rcases List.mem_cons.mp h with h2 | h2
        · exact absurd h2.symm hk
        · exact h2
      simp only [alistSet, if_neg hk, dictKeys, List.map_cons]
      rw [show List.map Prod.fst (alistSet t k v) = dictKeys (alistSet t k v) from rfl,
        dictKeys_alistSet v this]
      rfl

theorem mem_vals_alistSet : ∀ {d : MergedDict} {k : String} {v e : HistoryItem},
    e ∈ dictVals (alistSet d k v) → e ∈ dictVals d ∨ e = v
  | [], k, v, e, h => by
    simp [alistSet, dictVals] at h
    exact Or.inr h
  | (k', v') :: t, k, v, e, h => by
    by_cases hk : k' = k
    · simp only [alistSet, if_pos hk, dictVals, List.map_cons, List.mem_cons] at h
      rcases h with h | h
      · exact Or.inr h
      · exact Or.inl (by simp [dictVals, List.mem_cons]; right; simpa [dictVals] using h)
    · simp only [alistSet, if_neg hk, dictVals, List.map_cons, List.mem_cons] at h
      rcases h with h | h
      · exact Or.inl (by simp [dictVals, h])
      · rcases @mem_vals_alistSet t _ _ _ h with h2 | h2
        · exact Or.inl (by simp [dictVals] at h2 ⊢; tauto)
        · exact Or.inr h2

theorem mem_pairs_alistSet : ∀ {d : MergedDict} {k : String} {v : HistoryItem}
    {p : String × HistoryItem},
    p ∈ alistSet d k v → p ∈ d ∨ (p.1 = k ∧ p.2 = v)
  | [], k, v, p, h => by
    simp only [alistSet, List.mem_singleton] at h
    exact Or.inr (by simp [h])
  | (k', v') :: t, k, v, p, h => by
    by_cases hk : k' = k
    · simp only [alistSet, if_pos hk, List.mem_cons] at h
      rcases h with h1 | h1
      · exact Or.inr (by simp [h1, hk])
      · exact Or.inl (List.mem_cons_of_mem _ h1)
    · simp only [alistSet, if_neg hk, List.mem_cons] at h
      rcases h with h1 | h1
      · exact Or.inl (by simp [h1])
      · rcases mem_pairs_alistSet h1 with h2 | h2
        · exact Or.inl (List.mem_cons_of_mem _ h2)
        · exact Or.inr h2

theorem alistGet_upsert_self (d : MergedDict) (n : HistoryItem) :
    alistGet (upsert d n) (dkey n) = wstep (alistGet d (dkey n)) n := by
  unfold upsert wstep
  cases h : alistGet d (dkey n) with
  | none =>
    rw [alistGet_append_right _ h]
    simp [alistGet]
  | some p =>
    by_cases hg : geB n p = true
    · simp [hg, alistGet_alistSet_self]
    · simp [hg, h]

theorem alistGet_upsert_ne (d : MergedDict) (n : HistoryItem) {k : String}
    (hk : k ≠ dkey n) : alistGet (upsert d n) k = alistGet d k := by
  unfold upsert
  cases h : alistGet d (dkey n) with
  | none =>
    cases h2 : alistGet d k with
    | none =>
      rw [alistGet_append_right _ h2]
      simp [alistGet, Ne.symm hk]
    | some v => exact alistGet_append_left _ h2
  | some p =>
    by_cases hg : geB n p = true
    · simp only [hg, if_pos]
      exact alistGet_alistSet_ne _ hk
    · simp [hg]

theorem alistGet_foldl_upsert : ∀ (C : List HistoryItem) (d : MergedDict) (k : String),
    alistGet (C.foldl upsert d) k =
      winner1 (alistGet d k) (C.filter (fun n => decide (dkey n = k)))
  | [], d, k => rfl
  | n :: t, d, k => by
    simp only [List.foldl_cons, List.filter_cons]
    by_cases h : dkey n = k
    · subst h
      rw [alistGet_foldl_upsert t (upsert d n) (dkey n), alistGet_upsert_self]
      simp [winner1]
    · rw [alistGet_foldl_upsert t _ k, alistGet_upsert_ne _ _ (Ne.symm h)]
      simp [h]

theorem dictKeys_upsert_mem (d : MergedDict) (n : HistoryItem) (h : dkey n ∈ dictKeys d) :
    dictKeys (upsert d n) = dictKeys d := by
  unfold upsert
  cases hget : alistGet d (dkey n) with
  | none => exact absurd h (alistGet_eq_none_iff.mp hget)
  | some p =>
    by_cases hg : geB n p = true
    · simp only [hg, if_pos]
      exact dictKeys_alistSet n h
    · simp [hg]

theorem dictKeys_upsert_notmem (d : MergedDict) (n : HistoryItem) (h : dkey n ∉ dictKeys d) :
    dictKeys (upsert d n) = dictKeys d ++ [dkey n] := by
  unfold upsert
  rw [alistGet_eq_none_iff.mpr h]
  simp [dictKeys]

theorem dictKeys_foldl_upsert : ∀ (C : List HistoryItem) (d : MergedDict),
    dictKeys (C.foldl upsert d) = dictKeys d ++ freshKeys (dictKeys d) C
  | [], d => by simp [freshKeys]
  | n :: t, d => by
    simp only [List.foldl_cons, freshKeys]
    by_cases h : dkey n ∈ dictKeys d
    · rw [dictKeys_foldl_upsert t, dictKeys_upsert_mem _ _ h, if_pos h]
    · rw [dictKeys_foldl_upsert t, dictKeys_upsert_notmem _ _ h, if_neg h]
      simp

theorem mem_freshKeys_not_mem : ∀ {C : List HistoryItem} {ks : List String} {k : String},
    k ∈ freshKeys ks C → k ∉ ks
  | [], ks, k, h => by simp [freshKeys] at h
  | n :: t, ks, k, h => by
    simp only [freshKeys] at h
    by_cases hm : dkey n ∈ ks
    · rw [if_pos hm] at h
      exact mem_freshKeys_not_mem h
    · rw [if_neg hm] at h
      rcases List.mem_cons.mp h with rfl | h2
      · exact hm
      · have h3 := mem_freshKeys_not_mem h2
        intro hk
        exact h3 (by simp [hk])

theorem freshKeys_nodup : ∀ (ks : List String) (C : List HistoryItem), (freshKeys ks C).Nodup
  | ks, [] => List.nodup_nil
  | ks, n :: t => by
    simp only [freshKeys]
    by_cases hm : dkey n ∈ ks
    · rw [if_pos hm]
      exact freshKeys_nodup ks t
    · rw [if_neg hm]
      refine List.nodup_cons.mpr ⟨?_, freshKeys_nodup _ t⟩
      intro hmem
      exact mem_freshKeys_not_mem hmem (by simp)

theorem dictKeys_foldl_nodup (C : List HistoryItem) (d : MergedDict)
    (h : (dictKeys d).Nodup) : (dictKeys (C.foldl upsert d)).Nodup := by
  rw [dictKeys_foldl_upsert]
  exact h.append (freshKeys_nodup _ _) (fun k hk hk2 => mem_freshKeys_not_mem hk2 hk)

theorem pair_inv_upsert {d : MergedDict} {n : HistoryItem}
    (h : ∀ p ∈ d, p.1 = dkey p.2) : ∀ p ∈ upsert d n, p.1 = dkey p.2 := by
  intro p hp
  unfold upsert at hp
  split at hp
  · rcases List.mem_append.mp hp with h2 | h2
    · exact h p h2
    · simp only [List.mem_singleton] at h2
      simp [h2]
  · split at hp
    · rcases mem_pairs_alistSet hp with h2 | h2
      · exact h p h2
      · rw [h2.1, h2.2]
    · exact h p hp

theorem pair_inv_foldl : ∀ (C : List HistoryItem) (d : MergedDict),
    (∀ p ∈ d, p.1 = dkey p.2) → ∀ p ∈ C.foldl upsert d, p.1 = dkey p.2
  | [], d, h => h
  | n :: t, d, h => by
    simp only [List.foldl_cons]
    exact pair_inv_foldl t (upsert d n) (pair_inv_upsert h)

theorem alistGet_of_mem_nodup : ∀ {d : MergedDict} {k : String} {v : HistoryItem},
    (dictKeys d).Nodup → (k, v) ∈ d → alistGet d k = some v
  | [], k, v, _, hm => by simp at hm
  | (k', v') :: t, k, v, hnd, hm => by
    rcases List.mem_cons.mp hm with h | h
    · obtain ⟨h1, h2⟩ := Prod.mk.inj h
      subst h1
      subst h2
      simp [alistGet]
    · have hk : k' ≠ k := by
        intro he
        subst he
        have : k' ∈ dictKeys t := by
          simp only [dictKeys, List.mem_map]
          exact ⟨(k', v), h, rfl⟩
        exact (List.nodup_cons.mp (by simpa [dictKeys] using hnd)).1 this
      simp only [alistGet, if_neg hk]
      exact alistGet_of_mem_nodup (by simpa [dictKeys] using
        (List.nodup_cons.mp (by simpa [dictKeys] using hnd)).2) h

theorem mem_vals_upsert {d : MergedDict} {n e : HistoryItem}
    (h : e ∈ dictVals (upsert d n)) : e ∈ dictVals d ∨ e = n := by
  unfold upsert at h
  split at h
  · simp only [dictVals, List.map_append, List.map_cons, List.map_nil, List.mem_append,
      List.mem_singleton] at h
    rcases h with h | h
    · exact Or.inl h
    · exact Or.inr h
  · split at h
    · exact mem_vals_alistSet h
    · exact Or.inl h

theorem mem_vals_foldl : ∀ (C : List HistoryItem) (d : MergedDict) (e : HistoryItem),
    e ∈ dictVals (C.foldl upsert d) → e ∈ dictVals d ∨ e ∈ C
  | [], d, e, h => Or.inl h
  | n :: t, d, e, h => by
    simp only [List.foldl_cons] at h
    rcases mem_vals_foldl t (upsert d n) e h with h2 | h2
    · rcases mem_vals_upsert h2 with h3 | h3
      · exact Or.inl h3
      · exact Or.inr (by simp [h3])
    · exact Or.inr (List.mem_cons_of_mem _ h2)

/-! ### Winner (dedup fold) lemmas -/

theorem winner1_append (acc : Option HistoryItem) (l1 l2 : List HistoryItem) :
    winner1 acc (l1 ++ l2) = winner1 (winner1 acc l1) l2 :=
  List.foldl_append _ _ _ _

theorem winner1_some_ne_none : ∀ (l : List HistoryItem) (p : HistoryItem),
    winner1 (some p) l ≠ none
  | [], p => by simp [winner1]
  | n :: t, p => by
    show winner1 (wstep (some p) n) t ≠ none
    unfold wstep
    by_cases hg : geB n p = true
    · simp only [hg, if_pos]
      exact winner1_some_ne_none t n
    · simp only [hg]
      simp
      exact winner1_some_ne_none t p

theorem winner1_none_eq_none_iff (l : List HistoryItem) :
    winner1 none l = none ↔ l = [] := by
  cases l with
  | nil => simp [winner1]
  | cons n t =>
    simp only [winner1, List.foldl_cons]
    constructor
    · intro h
      exact absurd h (winner1_some_ne_none t n)
    · intro h
      cases h

theorem winner1_iso_le : ∀ (l : List HistoryItem) (p q : HistoryItem),
    winner1 (some p) l = some q → isoOf p ≤ isoOf q
  | [], p, q, h => by
    simp [winner1] at h
    simp [h]
  | n :: t, p, q, h => by
    rw [show winner1 (some p) (n :: t) = winner1 (wstep (some p) n) t from rfl] at h
    unfold wstep at h
    by_cases hg : geB n p = true
    · simp only [hg, if_pos] at h
      have h1 : isoOf p ≤ isoOf n := of_decide_eq_true hg
      exact le_trans h1 (winner1_iso_le t n q h)
    · simp only [hg] at h
      simp at h
      exact winner1_iso_le t p q h

theorem winner1_ge_mem : ∀ (l : List HistoryItem) (acc : Option HistoryItem) (q : HistoryItem),
    winner1 acc l = some q → ∀ x ∈ l, isoOf x ≤ isoOf q
  | [], acc, q, _, x, hx => by simp at hx
  | n :: t, acc, q, h, x, hx => by
    rw [show winner1 acc (n :: t) = winner1 (wstep acc n) t from rfl] at h
    rcases List.mem_cons.mp hx with rfl | hx2
    · cases acc with
      | none => exact winner1_iso_le t x q h
      | some p =>
        unfold wstep at h
        by_cases hg : geB x p = true
        · simp only [hg, if_pos] at h
          exact winner1_iso_le t x q h
        · simp only [hg] at h
          simp at h
          have h1 : ¬ isoOf p ≤ isoOf x := by
            simpa [geB] using hg
          exact le_trans (le_of_lt (lt_of_not_le h1)) (winner1_iso_le t p q h)
    · exact winner1_ge_mem t _ q h x hx2

theorem winner1_mem_or_acc : ∀ (l : List HistoryItem) (acc : Option HistoryItem) (q : HistoryItem),
    winner1 acc l = some q → q ∈ l ∨ acc = some q
  | [], acc, q, h => Or.inr h
  | n :: t, acc, q, h => by
    rw [show winner1 acc (n :: t) = winner1 (wstep acc n) t from rfl] at h
    rcases winner1_mem_or_acc t _ q h with h2 | h2
    · exact Or.inl (List.mem_cons_of_mem _ h2)
    · unfold wstep at h2
      cases acc with
      | none =>
        simp at h2
        exact Or.inl (by simp [h2])
      | some p =>
        by_cases hg : geB n p = true
        · simp only [hg, if_pos] at h2
          simp at h2
          exact Or.inl (by simp [h2])
        · simp only [hg] at h2
          simp at h2
          exact Or.inr (by simp [h2])

theorem winner1_absorb {p m : HistoryItem} (h : isoOf p ≤ isoOf m) :
    winner1 (some p) [m] = some m := by
  simp only [winner1, List.foldl_cons, List.foldl_nil, wstep]
  rw [if_pos (by exact decide_eq_true h)]

/-! ### Normalization lemmas -/

theorem normalize_date_idem (s : String) : normalize_date (normalize_date s) = normalize_date s := by
  apply String.ext
  simp only [normalize_date, digitsOf]
  rw [List.filter_eq_self.mpr]
  · rw [List.take_take, Nat.min_self]
  · intro a ha
    exact (List.mem_filter.mp ((List.take_sublist _ _).subset ha)).2

theorem normStage3_date (e : HistoryItem) : (normStage3 e).date = e.date := by
  unfold normStage3
  split <;> rfl

theorem normStage4_date (e : HistoryItem) : (normStage4 e).date = e.date := by
  unfold normStage4
  split <;> rfl

theorem normStage3_detected (e : HistoryItem) :
    (normStage3 e).detected_at_utc = e.detected_at_utc := by
  unfold normStage3
  split <;> rfl

theorem normStage4_detected (e : HistoryItem) :
    (normStage4 e).detected_at_utc = e.detected_at_utc := by
  unfold normStage4
  split <;> rfl

theorem normStage3_kind (e : HistoryItem) : (normStage3 e).kind = e.kind := by
  unfold normStage3
  split <;> rfl

theorem normStage4_kind (e : HistoryItem) : (normStage4 e).kind = e.kind := by
  unfold normStage4
  split <;> rfl

theorem normStage3_title (e : HistoryItem) : (normStage3 e).title = e.title := by
  unfold normStage3
  split <;> rfl

theorem normStage4_title (e : HistoryItem) : (normStage4 e).title = e.title := by
  unfold normStage4
  split <;> rfl

theorem normStage3_id (e : HistoryItem) : (normStage3 e).id = e.id := by
  unfold normStage3
  split <;> rfl

theorem normStage4_id (e : HistoryItem) : (normStage4 e).id = e.id := by
  unfold normStage4
  split <;> rfl

theorem normStage3_status (e : HistoryItem) : (normStage3 e).status = e.status := by
  unfold normStage3
  split <;> rfl

theorem normStage4_status (e : HistoryItem) : (normStage4 e).status = e.status := by
  unfold normStage4
  split <;> rfl

theorem normStage4_history_key (e : HistoryItem) :
    (normStage4 e).history_key = e.history_key := by
  unfold normStage4
  split <;> rfl

theorem normItem_date (now : String) (e : HistoryItem) :
    (normItem now e).date = some (normalize_date (e.date.getD "")) := by
  unfold normItem
  rw [normStage4_date, normStage3_date]
  rfl

theorem normItem_detected (now : String) (e : HistoryItem) :
    (normItem now e).detected_at_utc = some (normalize_detected_at_utc now (normStage1 e)) := by
  unfold normItem
  rw [normStage4_detected, normStage3_detected]
  rfl

theorem normItem_kind (now : String) (e : HistoryItem) : (normItem now e).kind = e.kind := by
  unfold normItem
  rw [normStage4_kind, normStage3_kind]
  rfl

theorem normItem_title (now : String) (e : HistoryItem) : (normItem now e).title = e.title := by
  unfold normItem
  rw [normStage4_title, normStage3_title]
  rfl

theorem normItem_id (now : String) (e : HistoryItem) : (normItem now e).id = e.id := by
  unfold normItem
  rw [normStage4_id, normStage3_id]
  rfl

theorem normItem_status (now : String) (e : HistoryItem) : (normItem now e).status = e.status := by
  unfold normItem
  rw [normStage4_status, normStage3_status]
  rfl

theorem cutoffKeepB_iff {cf : Nat} {e : HistoryItem} :
    cutoffKeepB cf e = true ↔ (dateNumOf e = 0 ∨ cf ≤ dateNumOf e) := by
  unfold cutoffKeepB
  split
  · next h =>
    simp only [Bool.false_eq_true, false_iff]
    omega
  · next h =>
    simp only [true_iff]
    omega

theorem mem_candidates {now : String} {cf : Nat} {l : List RawVal} {e : HistoryItem}
    (h : e ∈ candidatesOf now cf l) :
    cutoffKeepB cf e = true ∧ ∃ e0, RawVal.dict e0 ∈ l ∧ e = normItem now e0 := by
  simp only [candidatesOf, List.mem_filterMap] at h
  obtain ⟨raw, hraw, hc⟩ := h
  rcases raw with e0 | _
  · simp only [candOf] at hc
    split at hc
    · next hkeep =>
      have he : e = normItem now e0 := (Option.some.inj hc).symm
      subst he
      exact ⟨hkeep, e0, hraw, rfl⟩
    · cases hc
  · cases hc

theorem mem_merge_mem_candidates {now : String} {L D : List RawVal} {c : String}
    {e : HistoryItem} (h : e ∈ merge_history_items now L D c) :
    e ∈ candidatesOf now (safe_int_yyyymmdd c) (L ++ D) := by
  unfold merge_history_items at h
  have h1 := mem_pySort.mp h
  rcases mem_vals_foldl _ [] e h1 with h2 | h2
  · simp [dictVals] at h2
  · exact h2

/-! ### Claim C3: cutoff enforcement (amended) -/

/-- C3 (corrected): every entry of a merged ledger has an effective comparator
(numeric date, falling back to the digits of the detection timestamp when the
date digits have value 0) that is either 0 — in which case the entry is
retained regardless of the cutoff — or at least the numeric cutoff.  Entries
with a nonzero comparator below the cutoff are dropped. -/
theorem C3_cutoff_enforcement : ∀ (now : String) (L D : List RawVal) (c : String)
    (e : HistoryItem), e ∈ merge_history_items now L D c →
    dateNumOf e = 0 ∨ safe_int_yyyymmdd c ≤ dateNumOf e := by
  intro now L D c e he
  have hc := mem_merge_mem_candidates he
  exact cutoffKeepB_iff.mp (mem_candidates hc).1

/-- C3 witness: a concrete surviving entry satisfies the comparator bound. -/
theorem C3_cutoff_enforcement_witness :
    dateNumOf (normItem nowA sampleNewA) = 0 ∨
      safe_int_yyyymmdd "20210101" ≤ dateNumOf (normItem nowA sampleNewA) :=
  C3_cutoff_enforcement nowA [] [.dict sampleNewA] "20210101" (normItem nowA sampleNewA)
    (by decide)

/-! ### Claim C10: zero-comparator entries always survive the cutoff filter -/

/-- C10 (confirmed): an entry whose date field has no digits and whose present
detection timestamp is digit-free has both comparators equal to 0, passes the
cutoff filter for every cutoff, and survives a singleton merge unchanged
(modulo normalization). -/
theorem C10_zero_comparator_retained : ∀ (now c : String) (e : HistoryItem),
    (∀ ch ∈ (e.date.getD "").data, ch.isDigit = false) →
    pyStrip (e.detected_at_utc.getD "") ≠ "" →
    (∀ ch ∈ (e.detected_at_utc.getD "").data, ch.isDigit = false) →
    cutoffKeepB (safe_int_yyyymmdd c) (normItem now e) = true ∧
    merge_history_items now [] [.dict e] c = [normItem now e] := by
  intro now c e hdate hne hdet
  have hd0 : normalize_date (e.date.getD "") = "" := normalize_date_of_no_digits hdate
  have hdet1 : (normItem now e).detected_at_utc = some (pyStrip (e.detected_at_utc.getD "")) := by
    rw [normItem_detected]
    unfold normalize_detected_at_utc
    rw [if_pos (by simpa [normStage1] using hne)]
    rfl
  have hdets : ∀ ch ∈ (pyStrip (e.detected_at_utc.getD "")).data, ch.isDigit = false := by
    intro ch hch
    exact hdet ch (mem_stripChars hch)
  have hnum : dateNumOf (normItem now e) = 0 := by
    unfold dateNumOf
    rw [normItem_date, hdet1]
    have h1 : safe_int_yyyymmdd ((some "").getD "") = 0 := by decide
    rw [hd0, h1]
    simp only [ne_eq, not_true_eq_false, if_neg, Option.getD_some, not_false_eq_true]
    unfold yyyymmdd_from_iso
    split
    · decide
    · have h2 : normalize_date (pyStrip (e.detected_at_utc.getD "")) = "" :=
        normalize_date_of_no_digits hdets
      rw [h2]
      decide
  have hkeep : cutoffKeepB (safe_int_yyyymmdd c) (normItem now e) = true :=
    cutoffKeepB_iff.mpr (Or.inl hnum)
  refine ⟨hkeep, ?_⟩
  unfold merge_history_items
  have hcand : candidatesOf now (safe_int_yyyymmdd c) ([] ++ [.dict e]) = [normItem now e] := by
    simp [candidatesOf, candOf, hkeep]
  rw [hcand]
  rfl

/-- C10 witness: the concrete junk-timestamp entry passes a positive cutoff. -/
theorem C10_zero_comparator_retained_witness :
    cutoffKeepB (safe_int_yyyymmdd "20990101") (normItem nowA sampleJunk) = true ∧
    merge_history_items nowA [] [.dict sampleJunk] "20990101" = [normItem nowA sampleJunk] :=
  C10_zero_comparator_retained nowA "20990101" sampleJunk (by decide) (by decide) (by decide)

/-! ### Claim C2: deduplication (amended) -/

theorem dictVals_pairwise_ne (d : MergedDict) (hnd : (dictKeys d).Nodup)
    (hinv : ∀ p ∈ d, p.1 = dkey p.2) :
    (dictVals d).Pairwise (fun a b => dkey a ≠ dkey b) := by
  have h1 : d.Pairwise (fun p q => p.1 ≠ q.1) := List.pairwise_map.mp hnd
  have h2 : d.Pairwise (fun p q => dkey p.2 ≠ dkey q.2) :=
    h1.imp_of_mem (by
      intro p q hp hq hne
      rw [hinv p hp, hinv q hq] at hne
      exact hne)
  exact List.pairwise_map.mpr h2

/-- C2 (corrected): no two entries of a merged ledger share an EFFECTIVE dedup
key (the stripped history_key, or the recomputed item key when the stored one
strips to the empty string); and every surviving entry has a detection
timestamp sort value at least that of every filtered candidate sharing its
effective key, so the later detection timestamp wins within a key group. -/
theorem C2_dedup_unique_latest_wins : ∀ (now : String) (L D : List RawVal) (c : String),
    (merge_history_items now L D c).Pairwise (fun a b => dkey a ≠ dkey b) ∧
    (∀ e ∈ merge_history_items now L D c,
      ∀ f ∈ candidatesOf now (safe_int_yyyymmdd c) (L ++ D),
        dkey f = dkey e → isoOf f ≤ isoOf e) := by
  intro now L D c
  constructor
  · unfold merge_history_items
    rw [(pySort_perm _).pairwise_iff (fun {a b : HistoryItem} h => Ne.symm h)]
    apply dictVals_pairwise_ne
    · exact dictKeys_foldl_nodup _ [] (by simp [dictKeys])
    · exact pair_inv_foldl _ [] (by simp)
  · intro e he f hf hk
    unfold merge_history_items at he
    have hv : e ∈ dictVals (dictOf (candidatesOf now (safe_int_yyyymmdd c) (L ++ D))) :=
      mem_pySort.mp he
    obtain ⟨p, hpair, hsnd⟩ := List.mem_map.mp hv
    have hinv := pair_inv_foldl (candidatesOf now (safe_int_yyyymmdd c) (L ++ D)) []
      (by simp) p hpair
    have hget : alistGet (dictOf (candidatesOf now (safe_int_yyyymmdd c) (L ++ D)))
        (dkey e) = some e := by
      apply alistGet_of_mem_nodup (dictKeys_foldl_nodup _ [] (by simp [dictKeys]))
      have : p = (dkey e, e) := by
        rcases p with ⟨k0, v0⟩
        simp only at hsnd
        subst hsnd
        simp only at hinv
        rw [hinv]
      rwa [this] at hpair
    unfold dictOf at hget
    rw [alistGet_foldl_upsert] at hget
    exact winner1_ge_mem _ _ _ hget f
      (List.mem_filter.mpr ⟨hf, by simp [hk]⟩)

/-- C2 witness: the dedup theorem applied to a concrete singleton merge. -/
theorem C2_dedup_unique_latest_wins_witness :
    (merge_history_items nowA [] [.dict sampleNewA] "20210101").Pairwise
      (fun a b => dkey a ≠ dkey b) ∧
    isoOf (normItem nowA sampleNewA) ≤ isoOf (normItem nowA sampleNewA) :=
  ⟨(C2_dedup_unique_latest_wins nowA [] [.dict sampleNewA] "20210101").1,
   (C2_dedup_unique_latest_wins nowA [] [.dict sampleNewA] "20210101").2
     (normItem nowA sampleNewA) (by decide) (normItem nowA sampleNewA) (by decide) rfl⟩

/-! ### Claim C4: output ordering (amended) -/

/-- C4 (corrected): the merge output is sorted by the non-strict comparator
"detection timestamp descending, then normalized date descending, then kind
ascending, then title ascending".  This comparator can tie for entries that
differ only in other fields, so it is not a total ORDER on entries, and (per
the separate counterexample) swapping the two input lists can change the
result; for fixed inputs the output is a deterministic function. -/
theorem C4_output_sorted : ∀ (now : String) (L D : List RawVal) (c : String),
    List.Pairwise (fun a b => itemLeB a b = true) (merge_history_items now L D c) := by
  intro now L D c
  unfold merge_history_items
  exact pySort_sorted _

/-! ### Claim C5: purity and clock independence (amended) -/

theorem normItem_clock_indep {e : HistoryItem} (n1 n2 : String)
    (h : pyStrip (e.detected_at_utc.getD "") ≠ "" ∨
      (normalize_date (e.date.getD "")).length = 8) :
    normItem n1 e = normItem n2 e := by
  unfold normItem
  suffices h2 : normStage2 n1 (normStage1 e) = normStage2 n2 (normStage1 e) by rw [h2]
  unfold normStage2
  have hdet : normalize_detected_at_utc n1 (normStage1 e) =
      normalize_detected_at_utc n2 (normStage1 e) := by
    unfold normalize_detected_at_utc
    rcases h with h | h
    · rw [if_pos (by simpa [normStage1] using h), if_pos (by simpa [normStage1] using h)]
    · by_cases hd : pyStrip ((normStage1 e).detected_at_utc.getD "") ≠ ""
      · rw [if_pos hd, if_pos hd]
      · rw [if_neg hd, if_neg hd]
        have hgd : (normStage1 e).date.getD "" = normalize_date (e.date.getD "") := rfl
        have hidem := normalize_date_idem (e.date.getD "")
        have hne : normalize_date ((normStage1 e).date.getD "") ≠ "" := by
          rw [hgd, hidem]
          intro hh
          rw [hh] at h
          exact absurd h (by decide)
        rw [if_pos hne, if_pos hne]
        unfold to_iso_utc_from_yyyymmdd
        have hx : normalize_date ((normStage1 e).date.getD "") = normalize_date (e.date.getD "") := by
          rw [hgd, hidem]
        rw [hx, hidem]
        have h8 : (normalize_date (e.date.getD "")).data.length = 8 := h
        rw [if_neg (by omega), if_neg (by omega)]
  rw [hdet]

/-- C5 (corrected): the merge is total by construction, and it is independent
of the clock exactly when no entry needs the clock fallback: whenever every
dict entry of the inputs carries a nonempty detection timestamp or a date that
normalizes to exactly 8 digits, merging at two different clock instants yields
identical outputs.  (The counterexample shows the unconditional claim fails.) -/
theorem C5_merge_clock_independent : ∀ (n1 n2 : String) (L D : List RawVal) (c : String),
    (∀ e : HistoryItem, RawVal.dict e ∈ L ++ D →
      pyStrip (e.detected_at_utc.getD "") ≠ "" ∨
        (normalize_date (e.date.getD "")).length = 8) →
    merge_history_items n1 L D c = merge_history_items n2 L D c := by
  intro n1 n2 L D c h
  unfold merge_history_items
  have hc : candidatesOf n1 (safe_int_yyyymmdd c) (L ++ D) =
      candidatesOf n2 (safe_int_yyyymmdd c) (L ++ D) := by
    unfold candidatesOf
    revert h
    generalize L ++ D = M
    intro h
    induction M with
    | nil => rfl
    | cons r t ih =>
      simp only [List.filterMap_cons]
      rw [ih (fun e he => h e (List.mem_cons_of_mem _ he))]
      rcases r with e | _
      · have hcand : candOf n1 (safe_int_yyyymmdd c) (RawVal.dict e) =
            candOf n2 (safe_int_yyyymmdd c) (RawVal.dict e) := by
          simp only [candOf]
          rw [normItem_clock_indep n1 n2 (h e (List.mem_cons_self _ _))]
        rw [hcand]
      · rfl
  rw [hc]

/-- C5 witness: with all detection timestamps present, two different clock
values produce the same merged output. -/
theorem C5_merge_clock_independent_witness :
    merge_history_items nowA [.dict sampleNewA] [.dict sampleKeyA] "20210101" =
    merge_history_items nowB [.dict sampleNewA] [.dict sampleKeyA] "20210101" :=
  C5_merge_clock_independent nowA nowB [.dict sampleNewA] [.dict sampleKeyA] "20210101" (by
    intro e he
    simp only [List.cons_append, List.nil_append, List.mem_cons, List.not_mem_nil,
      or_false, List.mem_singleton] at he
    rcases he with he | he
    · cases he
      left
      decide
    · cases he
      left
      decide)

/-! ### Stripping lemmas for the idempotence proof -/

theorem dropWhile_dropWhile (p : Char → Bool) : ∀ l : List Char,
    (l.dropWhile p).dropWhile p = l.dropWhile p
  | [] => rfl
  | c :: t => by
    by_cases h : p c
    · simp only [List.dropWhile_cons, h, if_pos]
      exact dropWhile_dropWhile p t
    · simp [List.dropWhile_cons, h]

theorem exists_dropWhile_pre (p : Char → Bool) : ∀ l : List Char,
    ∃ pre, l = pre ++ l.dropWhile p
  | [] => ⟨[], rfl⟩
  | c :: t => by
    by_cases h : p c
    · obtain ⟨pre, hp⟩ := exists_dropWhile_pre p t
    -- dropping continues into the tail
      exact ⟨c :: pre, by simp [List.dropWhile_cons, h, ← hp]⟩
    · exact ⟨[], by simp [List.dropWhile_cons, h]⟩

theorem dropWhile_eq_self_of_append (p : Char → Bool) :
    ∀ {v t : List Char}, (v ++ t).dropWhile p = v ++ t → v.dropWhile p = v := by
  intro v t h
  cases v with
  | nil => rfl
  | cons c v2 =>
    have hc : p c = false := by
      by_contra hc
      have hc2 : p c = true := by
        cases hx : p c
        · exact absurd hx hc
        · rfl
      have hlen : ((c :: v2 ++ t).dropWhile p).length ≤ (v2 ++ t).length := by
        simp only [List.cons_append, List.dropWhile_cons, hc2, if_pos]
        exact (List.dropWhile_sublist p).length_le
      rw [h] at hlen
      simp at hlen
    simp [List.dropWhile_cons, hc]

theorem stripChars_idem (l : List Char) : stripChars (stripChars l) = stripChars l := by
  unfold stripChars
  set u := l.dropWhile isPySpace with hu
  have hrev : ((u.reverse.dropWhile isPySpace).reverse).reverse.dropWhile isPySpace =
      (u.reverse.dropWhile isPySpace) := by
    rw [List.reverse_reverse]
    exact dropWhile_dropWhile _ _
  have hfst : ((u.reverse.dropWhile isPySpace).reverse).dropWhile isPySpace =
      (u.reverse.dropWhile isPySpace).reverse := by
    have huu : u.dropWhile isPySpace = u := dropWhile_dropWhile _ l
    obtain ⟨pre, hp⟩ := exists_dropWhile_pre isPySpace u.reverse
    have hv : u = (u.reverse.dropWhile isPySpace).reverse ++ pre.reverse := by
      have h2 : u.reverse.reverse = (pre ++ u.reverse.dropWhile isPySpace).reverse := by
        rw [← hp]
      rw [List.reverse_reverse, List.reverse_append] at h2
      exact h2
    apply @dropWhile_eq_self_of_append isPySpace _ pre.reverse
    rw [← hv]
    exact huu
  rw [hfst, hrev]

theorem pyStrip_idem (s : String) : pyStrip (pyStrip s) = pyStrip s := by
  unfold pyStrip
  exact String.ext (stripChars_idem s.data)

theorem stripChars_of_no_space {l : List Char} (h : ∀ c ∈ l, isPySpace c = false) :
    stripChars l = l := by
  unfold stripChars
  have h1 : l.dropWhile isPySpace = l := by
    cases l with
    | nil => rfl
    | cons c t => simp [List.dropWhile_cons, h c (List.mem_cons_self _ _)]
  rw [h1]
  have h2 : l.reverse.dropWhile isPySpace = l.reverse := by
    cases hl : l.reverse with
    | nil => rfl
    | cons c t =>
      have hc : c ∈ l := by
        rw [← List.mem_reverse, hl]
        exact List.mem_cons_self _ _
      simp [List.dropWhile_cons, h c hc]
  rw [h2, List.reverse_reverse]

theorem pyStrip_of_no_space {s : String} (h : ∀ c ∈ s.data, isPySpace c = false) :
    pyStrip s = s := String.ext (stripChars_of_no_space h)

theorem history_item_key_ne_empty (e : HistoryItem) : history_item_key e ≠ "" := by
  unfold history_item_key
  intro h
  have h2 := congrArg String.data h
  simp only [String.data_append] at h2
  simp at h2

theorem statusKoOf_ne_empty (st : String) : statusKoOf st ≠ "" := by
  unfold statusKoOf
  split
  · decide
  · split
    · decide
    · split
      · decide
      · decide

/-! ### Idempotence of the per-item normalization -/

theorem historyItem_ext {a b : HistoryItem} (h1 : a.status = b.status)
    (h2 : a.status_ko = b.status_ko) (h3 : a.kind = b.kind) (h4 : a.title = b.title)
    (h5 : a.date = b.date) (h6 : a.id = b.id) (h7 : a.diff_url = b.diff_url)
    (h8 : a.change_summary = b.change_summary) (h9 : a.source = b.source)
    (h10 : a.detected_at_utc = b.detected_at_utc) (h11 : a.history_key = b.history_key) :
    a = b := by
  rcases a with ⟨⟩
  rcases b with ⟨⟩
  simp_all

theorem normStage3_status_ko (e : HistoryItem) : (normStage3 e).status_ko = e.status_ko := by
  unfold normStage3
  split <;> rfl

theorem normStage3_diff_url (e : HistoryItem) : (normStage3 e).diff_url = e.diff_url := by
  unfold normStage3
  split <;> rfl

theorem normStage4_diff_url (e : HistoryItem) : (normStage4 e).diff_url = e.diff_url := by
  unfold normStage4
  split <;> rfl

theorem normStage3_change_summary (e : HistoryItem) :
    (normStage3 e).change_summary = e.change_summary := by
  unfold normStage3
  split <;> rfl

theorem normStage4_change_summary (e : HistoryItem) :
    (normStage4 e).change_summary = e.change_summary := by
  unfold normStage4
  split <;> rfl

theorem normStage3_source (e : HistoryItem) : (normStage3 e).source = e.source := by
  unfold normStage3
  split <;> rfl

theorem normStage4_source (e : HistoryItem) : (normStage4 e).source = e.source := by
  unfold normStage4
  split <;> rfl

theorem normItem_diff_url (now : String) (e : HistoryItem) :
    (normItem now e).diff_url = e.diff_url := by
  unfold normItem
  rw [normStage4_diff_url, normStage3_diff_url]
  rfl

theorem normItem_change_summary (now : String) (e : HistoryItem) :
    (normItem now e).change_summary = e.change_summary := by
  unfold normItem
  rw [normStage4_change_summary, normStage3_change_summary]
  rfl

theorem normItem_source (now : String) (e : HistoryItem) :
    (normItem now e).source = e.source := by
  unfold normItem
  rw [normStage4_source, normStage3_source]
  rfl

theorem normItem_history_key (now : String) (e : HistoryItem) :
    (normItem now e).history_key =
      if e.history_key.getD "" = "" then
        some (history_item_key (normStage2 now (normStage1 e)))
      else e.history_key := by
  unfold normItem
  rw [normStage4_history_key]
  unfold normStage3
  split
  · next h =>
    rw [if_pos (show e.history_key.getD "" = "" from h)]
  · next h =>
    rw [if_neg (show ¬ e.history_key.getD "" = "" from h)]
    rfl

theorem normItem_status_ko (now : String) (e : HistoryItem) :
    (normItem now e).status_ko =
      if e.status_ko.getD "" = "" then some (statusKoOf (e.status.getD "MOD"))
      else e.status_ko := by
  unfold normItem
  unfold normStage4
  split
  · next h =>
    rw [normStage3_status_ko] at h
    rw [if_pos (show e.status_ko.getD "" = "" from h)]
    rw [show (normStage3 (normStage2 now (normStage1 e))).status =
      e.status from normStage3_status _]
  · next h =>
    rw [normStage3_status_ko] at h
    rw [if_neg (show ¬ e.status_ko.getD "" = "" from h)]
    exact normStage3_status_ko _

theorem isPySpace_eq_false_of_isDigit {c : Char} (h : c.isDigit = true) :
    isPySpace c = false := by
  by_contra hc
  have h2 : isPySpace c = true := by
    cases hx : isPySpace c
    · exact absurd hx hc
    · rfl
  unfold isPySpace at h2
  simp only [Bool.or_eq_true, decide_eq_true_eq] at h2
  rcases h2 with ((((h2 | h2) | h2) | h2) | h2) | h2 <;> (subst h2; exact absurd h (by decide))

theorem to_iso_format_no_space {now dt : String}
    (hlen : ¬ (normalize_date dt).data.length ≠ 8) :
    (∀ c ∈ (to_iso_utc_from_yyyymmdd now dt).data, isPySpace c = false) ∧
      to_iso_utc_from_yyyymmdd now dt ≠ "" := by
  unfold to_iso_utc_from_yyyymmdd
  rw [if_neg hlen]
  constructor
  · intro c hc
    simp only [String.data_append] at hc
    simp only [List.mem_append] at hc
    have hdig : ∀ x ∈ (normalize_date dt).data, x.isDigit = true := normalize_date_all_digits dt
    rcases hc with ((((hc | hc) | hc) | hc) | hc) | hc
    · exact isPySpace_eq_false_of_isDigit
        (hdig c ((List.take_sublist _ _).subset hc))
    · simp only [show ("-" : String).data = ['-'] from rfl, List.mem_singleton] at hc
      subst hc
      decide
    · exact isPySpace_eq_false_of_isDigit
        (hdig c ((List.drop_sublist _ _).subset ((List.take_sublist _ _).subset hc)))
    · simp only [show ("-" : String).data = ['-'] from rfl, List.mem_singleton] at hc
      subst hc
      decide
    · exact isPySpace_eq_false_of_isDigit
        (hdig c ((List.drop_sublist _ _).subset ((List.take_sublist _ _).subset hc)))
    · fin_cases hc <;> decide
  · intro hc
    have h2 := congrArg String.data hc
    simp only [String.data_append] at h2
    simp at h2

theorem normalize_detected_stable {now : String} (hnow : pyStrip now = now)
    {e1 e2 : HistoryItem}
    (hdet : e2.detected_at_utc = some (normalize_detected_at_utc now e1))
    (hdate : normalize_date (e2.date.getD "") = normalize_date (e1.date.getD "")) :
    normalize_detected_at_utc now e2 = normalize_detected_at_utc now e1 := by
  by_cases hb1 : pyStrip (e1.detected_at_utc.getD "") ≠ ""
  · have ht : normalize_detected_at_utc now e1 = pyStrip (e1.detected_at_utc.getD "") := by
      unfold normalize_detected_at_utc
      rw [if_pos hb1]
    have h2 : pyStrip (e2.detected_at_utc.getD "") = pyStrip (e1.detected_at_utc.getD "") := by
      rw [hdet, ht]
      simp only [Option.getD_some]
      exact pyStrip_idem _
    have hne2 : pyStrip (e2.detected_at_utc.getD "") ≠ "" := by
      rw [h2]
      exact hb1
    unfold normalize_detected_at_utc
    rw [if_pos hne2, if_pos hb1, h2]
  · by_cases hb2 : normalize_date (e1.date.getD "") ≠ ""
    · have ht : normalize_detected_at_utc now e1 =
          to_iso_utc_from_yyyymmdd now (normalize_date (e1.date.getD "")) := by
        unfold normalize_detected_at_utc
        rw [if_neg hb1, if_pos hb2]
      by_cases hlen : (normalize_date (normalize_date (e1.date.getD ""))).data.length ≠ 8
      · have ht2 : to_iso_utc_from_yyyymmdd now (normalize_date (e1.date.getD "")) = now := by
          unfold to_iso_utc_from_yyyymmdd
          rw [if_pos hlen]
        by_cases hnow0 : now = ""
        · have hs2 : pyStrip (e2.detected_at_utc.getD "") = "" := by
            rw [hdet, ht, ht2, hnow0]
            rfl
          unfold normalize_detected_at_utc
          rw [if_neg (by simp [hs2]), if_neg hb1, if_pos (by rw [hdate]; exact hb2),
            if_pos hb2, hdate]
        · have hs2 : pyStrip (e2.detected_at_utc.getD "") = now := by
            rw [hdet, ht, ht2]
            simp only [Option.getD_some]
            exact hnow
          unfold normalize_detected_at_utc
          rw [if_pos (by rw [hs2]; exact hnow0), if_neg hb1, if_pos hb2, hs2, ht2]
      · obtain ⟨hnos, hne⟩ := @to_iso_format_no_space now _ hlen
        have hs2 : pyStrip (e2.detected_at_utc.getD "") =
            to_iso_utc_from_yyyymmdd now (normalize_date (e1.date.getD "")) := by
          rw [hdet, ht]
          simp only [Option.getD_some]
          exact pyStrip_of_no_space hnos
        unfold normalize_detected_at_utc
        rw [if_pos (by rw [hs2]; exact hne), if_neg hb1, if_pos hb2, hs2]
    · have ht : normalize_detected_at_utc now e1 = now := by
        unfold normalize_detected_at_utc
        rw [if_neg hb1, if_neg hb2]
      by_cases hnow0 : now = ""
      · have hs2 : pyStrip (e2.detected_at_utc.getD "") = "" := by
          rw [hdet, ht, hnow0]
          rfl
        unfold normalize_detected_at_utc
        rw [if_neg (by simp [hs2]), if_neg hb1,
          if_neg (by rw [hdate]; exact hb2), if_neg hb2]
      · have hs2 : pyStrip (e2.detected_at_utc.getD "") = now := by
          rw [hdet, ht]
          simp only [Option.getD_some]
          exact hnow
        unfold normalize_detected_at_utc
        rw [if_pos (by rw [hs2]; exact hnow0), if_neg hb1, if_neg hb2, hs2]

theorem normItem_idem {now : String} (hnow : pyStrip now = now) (e : HistoryItem) :
    normItem now (normItem now e) = normItem now e := by
  apply historyItem_ext
  · exact normItem_status now _
  · rw [normItem_status_ko now (normItem now e)]
    have h1 : (normItem now e).status_ko.getD "" ≠ "" := by
      rw [normItem_status_ko now e]
      split
      · simp only [Option.getD_some]
        exact statusKoOf_ne_empty _
      · next h => exact h
    rw [if_neg h1]
  · exact normItem_kind now _
  · exact normItem_title now _
  · rw [normItem_date now (normItem now e), normItem_date now e]
    simp only [Option.getD_some]
    rw [normalize_date_idem]
  · exact normItem_id now _
  · exact normItem_diff_url now _
  · exact normItem_change_summary now _
  · exact normItem_source now _
  · rw [normItem_detected now (normItem now e), normItem_detected now e]
    congr 1
    apply normalize_detected_stable hnow
    · show (normItem now e).detected_at_utc = some (normalize_detected_at_utc now (normStage1 e))
      exact normItem_detected now e
    · show normalize_date ((normStage1 (normItem now e)).date.getD "") =
        normalize_date ((normStage1 e).date.getD "")
      rw [show (normStage1 (normItem now e)).date =
          some (normalize_date ((normItem now e).date.getD "")) from rfl,
        show (normStage1 e).date = some (normalize_date (e.date.getD "")) from rfl]
      simp only [Option.getD_some]
      rw [normalize_date_idem, normalize_date_idem, normItem_date now e]
      simp only [Option.getD_some]
      rw [normalize_date_idem]
  · rw [normItem_history_key now (normItem now e)]
    have h1 : (normItem now e).history_key.getD "" ≠ "" := by
      rw [normItem_history_key now e]
      split
      · simp only [Option.getD_some]
        exact history_item_key_ne_empty _
      · next h => exact h
    rw [if_neg h1]

/-! ### Structural dict decomposition for the idempotence proof -/

theorem filterMap_of_all_some {f : RawVal → Option HistoryItem} :
    ∀ {l : List HistoryItem}, (∀ x ∈ l, f (RawVal.dict x) = some x) →
      (l.map RawVal.dict).filterMap f = l
  | [], _ => rfl
  | x :: t, h => by
    simp only [List.map_cons, List.filterMap_cons, h x (List.mem_cons_self _ _)]
    rw [filterMap_of_all_some (fun y hy => h y (List.mem_cons_of_mem _ hy))]

theorem alistGet_mem : ∀ {d : MergedDict} {k : String} {v : HistoryItem},
    alistGet d k = some v → (k, v) ∈ d
  | [], k, v, h => by simp [alistGet] at h
  | (k', v') :: t, k, v, h => by
    by_cases hk : k' = k
    · subst hk
      have h2 : v' = v := by simpa [alistGet] using h
      subst h2
      exact List.mem_cons_self _ _
    · simp only [alistGet, if_neg hk] at h
      exact List.mem_cons_of_mem _ (alistGet_mem h)

theorem alistGet_isSome_of_mem {d : MergedDict} {k : String} (h : k ∈ dictKeys d) :
    ∃ v, alistGet d k = some v := by
  cases hget : alistGet d k with
  | none => exact absurd h (alistGet_eq_none_iff.mp hget)
  | some v => exact ⟨v, rfl⟩

theorem vals_eq_of_same_keys_get : ∀ (d1 d2 : MergedDict),
    dictKeys d1 = dictKeys d2 → (∀ k, alistGet d1 k = alistGet d2 k) →
    (dictKeys d1).Nodup → dictVals d1 = dictVals d2
  | [], d2, hk, _, _ => by
    have : dictKeys d2 = [] := hk.symm
    have : d2 = [] := by
      cases d2 with
      | nil => rfl
      | cons p t => simp [dictKeys] at this
    rw [this]
  | (k, v) :: t1, d2, hk, hget, hnd => by
    cases d2 with
    | nil => simp [dictKeys] at hk
    | cons p2 t2 =>
      rcases p2 with ⟨k2, v2⟩
      have hkk : k2 = k := by
        simp only [dictKeys, List.map_cons, List.cons.injEq] at hk
        exact hk.1.symm
      subst hkk
      have hv : v = v2 := by
        have h1 := hget k2
        simpa [alistGet] using h1
      subst hv
      have hknotin : k2 ∉ dictKeys t1 := (List.nodup_cons.mp (by simpa [dictKeys] using hnd)).1
      have hknotin2 : k2 ∉ dictKeys t2 := by
        have : dictKeys t1 = dictKeys t2 := by
          simp only [dictKeys, List.map_cons, List.cons.injEq] at hk
          exact hk.2
        rwa [this] at hknotin
      have htl : dictVals t1 = dictVals t2 := by
        apply vals_eq_of_same_keys_get t1 t2
        · simp only [dictKeys, List.map_cons, List.cons.injEq] at hk
          exact hk.2
        · intro k'
          by_cases hk' : k' = k2
          · subst hk'
            rw [alistGet_eq_none_iff.mpr hknotin, alistGet_eq_none_iff.mpr hknotin2]
          · have h1 := hget k'
            simp only [alistGet, if_neg (fun hh : k2 = k' => hk' hh.symm)] at h1
            exact h1
        · exact (List.nodup_cons.mp (by simpa [dictKeys] using hnd)).2
      simp only [dictVals, List.map_cons]
      rw [show List.map Prod.snd t1 = dictVals t1 from rfl,
        show List.map Prod.snd t2 = dictVals t2 from rfl, htl]

theorem foldl_upsert_decomp : ∀ (X : List HistoryItem) (dd : MergedDict),
    ∃ ddU fresh : MergedDict,
      X.foldl upsert dd = ddU ++ fresh ∧
      dictKeys ddU = dictKeys dd ∧
      dictKeys fresh = freshKeys (dictKeys dd) X
  | [], dd => ⟨dd, [], by simp [freshKeys], rfl, by simp [freshKeys, dictKeys]⟩
  | n :: t, dd => by
    simp only [List.foldl_cons, freshKeys]
    by_cases hm : dkey n ∈ dictKeys dd
    · obtain ⟨ddU, fresh, h1, h2, h3⟩ := foldl_upsert_decomp t (upsert dd n)
      refine ⟨ddU, fresh, h1, ?_, ?_⟩
      · rw [h2, dictKeys_upsert_mem _ _ hm]
      · rw [h3, dictKeys_upsert_mem _ _ hm, if_pos hm]
    · obtain ⟨ddU, fresh, h1, h2, h3⟩ := foldl_upsert_decomp t (upsert dd n)
      rw [dictKeys_upsert_notmem _ _ hm] at h2 h3
      obtain ⟨dd1, dd2, hsplit, hks1, hks2⟩ := List.map_eq_append_iff.mp h2
      refine ⟨dd1, dd2 ++ fresh, ?_, hks1, ?_⟩
      · rw [h1, hsplit, List.append_assoc]
      · rw [if_neg hm]
        have hk2 : dictKeys dd2 = [dkey n] := hks2
        simp only [dictKeys, List.map_append]
        rw [show List.map Prod.fst dd2 = dictKeys dd2 from rfl, hk2,
          show List.map Prod.fst fresh = dictKeys fresh from rfl, h3]
        rfl

theorem freshKeys_of_nodup : ∀ {l : List HistoryItem} (ks : List String),
    (l.map dkey).Nodup →
    freshKeys ks l = (l.map dkey).filter (fun k => decide (k ∉ ks))
  | [], ks, _ => rfl
  | n :: t, ks, hnd => by
    have hnd2 : (t.map dkey).Nodup := (List.nodup_cons.mp hnd).2
    have hnotin : dkey n ∉ t.map dkey := (List.nodup_cons.mp hnd).1
    simp only [freshKeys, List.map_cons, List.filter_cons]
    by_cases hm : dkey n ∈ ks
    · rw [if_pos hm]
      simp only [hm, not_true_eq_false, decide_False]
      exact freshKeys_of_nodup ks hnd2
    · rw [if_neg hm]
      simp only [hm, not_false_eq_true, decide_True]
      rw [freshKeys_of_nodup (ks ++ [dkey n]) hnd2]
      congr 1
      apply List.filter_congr
      intro k hk
      have : k ≠ dkey n := fun hh => hnotin (hh ▸ hk)
      simp [this, hm]

theorem list_eq_of_map_eq_det {h : String → Option HistoryItem} :
    ∀ {l1 l2 : List HistoryItem},
      l1.map dkey = l2.map dkey →
      (∀ x ∈ l1, h (dkey x) = some x) →
      (∀ x ∈ l2, h (dkey x) = some x) →
      l1 = l2
  | [], [], _, _, _ => rfl
  | [], b :: t2, hm, _, _ => by simp at hm
  | a :: t1, [], hm, _, _ => by simp at hm
  | a :: t1, b :: t2, hm, h1, h2 => by
    simp only [List.map_cons, List.cons.injEq] at hm
    have hab : a = b := by
      have ha := h1 a (List.mem_cons_self _ _)
      have hb := h2 b (List.mem_cons_self _ _)
      rw [hm.1] at ha
      rw [ha] at hb
      exact Option.some.inj hb
    subst hab
    rw [list_eq_of_map_eq_det hm.2 (fun x hx => h1 x (List.mem_cons_of_mem _ hx))
      (fun x hx => h2 x (List.mem_cons_of_mem _ hx))]

theorem nodup_filter_key : ∀ {l : List HistoryItem}, (l.map dkey).Nodup →
    ∀ {m : HistoryItem}, m ∈ l →
      l.filter (fun n => decide (dkey n = dkey m)) = [m]
  | [], _, m, hm => by simp at hm
  | a :: t, hnd, m, hm => by
    rcases List.mem_cons.mp hm with rfl | hm2
    · have hnil : t.filter (fun n => decide (dkey n = dkey m)) = [] := by
        rw [List.filter_eq_nil_iff]
        intro x hx
        simp only [decide_eq_true_eq]
        intro hh
        exact (List.nodup_cons.mp hnd).1 (hh ▸ List.mem_map_of_mem dkey hx)
      simp [List.filter_cons, hnil]
    · have hne : dkey a ≠ dkey m := by
        intro hh
        exact (List.nodup_cons.mp hnd).1 (hh ▸ List.mem_map_of_mem dkey hm2)
      simp only [List.filter_cons, hne, decide_False]
      exact nodup_filter_key (List.nodup_cons.mp hnd).2 hm2

theorem merge_mem_cand_fix {now : String} (hnow : pyStrip now = now)
    {L D : List RawVal} {c : String} :
    ∀ m ∈ merge_history_items now L D c,
      candOf now (safe_int_yyyymmdd c) (RawVal.dict m) = some m := by
  intro m hm
  have hc := mem_merge_mem_candidates hm
  obtain ⟨hkeep, e0, _, he0⟩ := mem_candidates hc
  have hidem : normItem now m = m := by
    rw [he0]
    exact normItem_idem hnow e0
  simp only [candOf]
  rw [hidem, if_pos hkeep]

theorem get_eq_after_refeed {dA dict1 : MergedDict} {B M : List HistoryItem}
    (hd1 : dict1 = B.foldl upsert dA)
    (hMperm : M.Perm (dictVals dict1))
    (hnd : (dictKeys dict1).Nodup)
    (hinv : ∀ p ∈ dict1, p.1 = dkey p.2) :
    ∀ k, alistGet (M.foldl upsert dA) k = alistGet dict1 k := by
  have hvalskeys : (dictVals dict1).map dkey = dictKeys dict1 := by
    unfold dictVals dictKeys
    rw [List.map_map]
    exact List.map_congr_left (fun p hp => (hinv p hp).symm)
  have hF7 : (M.map dkey).Nodup := by
    have h1 : (M.map dkey).Perm ((dictVals dict1).map dkey) := hMperm.map dkey
    rw [hvalskeys] at h1
    exact (h1.nodup_iff).mpr hnd
  have hF6 : ∀ m ∈ M, alistGet dict1 (dkey m) = some m := by
    intro m hm
    have hv : m ∈ dictVals dict1 := hMperm.subset hm
    obtain ⟨p, hp, hps⟩ := List.mem_map.mp hv
    have hpe : p = (dkey m, m) := by
      rcases p with ⟨k0, v0⟩
      simp only at hps
      subst hps
      have hk0 : k0 = dkey v0 := hinv _ hp
      rw [hk0]
    exact alistGet_of_mem_nodup hnd (hpe ▸ hp)
  intro k
  rw [alistGet_foldl_upsert M dA k]
  by_cases hex : ∃ m ∈ M, dkey m = k
  · obtain ⟨m, hmM, rfl⟩ := hex
    rw [nodup_filter_key hF7 hmM]
    have hr := hF6 m hmM
    cases gA : alistGet dA (dkey m) with
    | none =>
      rw [hr]
      rfl
    | some p =>
      have hwin : winner1 (some p)
          (B.filter (fun n => decide (dkey n = dkey m))) = some m := by
        rw [← gA, ← alistGet_foldl_upsert, ← hd1]
        exact hr
      have hle : isoOf p ≤ isoOf m := winner1_iso_le _ p m hwin
      rw [winner1_absorb hle, hr]
  · have hfil : M.filter (fun n => decide (dkey n = k)) = [] := by
      rw [List.filter_eq_nil_iff]
      intro x hx
      simp only [decide_eq_true_eq]
      intro hh
      exact hex ⟨x, hx, hh⟩
    rw [hfil]
    have hnone : alistGet dict1 k = none := by
      cases hget : alistGet dict1 k with
      | none => rfl
      | some v =>
        exfalso
        have hp := alistGet_mem hget
        have hvv : v ∈ dictVals dict1 := List.mem_map_of_mem Prod.snd hp
        have hvM : v ∈ M := (hMperm.mem_iff).mpr hvv
        exact hex ⟨v, hvM, (hinv _ hp).symm⟩
    have hwn : winner1 (alistGet dA k) (B.filter (fun n => decide (dkey n = k))) = none := by
      rw [← alistGet_foldl_upsert, ← hd1]
      exact hnone
    cases gA : alistGet dA k with
    | none =>
      rw [hnone]
      rfl
    | some p =>
      exfalso
      rw [gA] at hwn
      exact winner1_some_ne_none _ _ hwn

theorem vals_class_filter_after_refeed {dA : MergedDict} {B M : List HistoryItem}
    (hndA : (dictKeys dA).Nodup)
    (hinvA : ∀ p ∈ dA, p.1 = dkey p.2)
    (hMperm : M.Perm (dictVals (B.foldl upsert dA)))
    (hMstable : ∀ g : SortKey,
      M.filter (fun e => decide (skey e = g)) =
        (dictVals (B.foldl upsert dA)).filter (fun e => decide (skey e = g))) :
    ∀ g : SortKey,
      (dictVals (M.foldl upsert dA)).filter (fun e => decide (skey e = g)) =
        (dictVals (B.foldl upsert dA)).filter (fun e => decide (skey e = g)) := by
  intro g
  have hnd1 : (dictKeys (B.foldl upsert dA)).Nodup := dictKeys_foldl_nodup B dA hndA
  have hinv1 : ∀ p ∈ B.foldl upsert dA, p.1 = dkey p.2 := pair_inv_foldl B dA hinvA
  have hnd2 : (dictKeys (M.foldl upsert dA)).Nodup := dictKeys_foldl_nodup M dA hndA
  have hinv2 : ∀ p ∈ M.foldl upsert dA, p.1 = dkey p.2 := pair_inv_foldl M dA hinvA
  have hget := get_eq_after_refeed rfl hMperm hnd1 hinv1
  have hvalskeys : (dictVals (B.foldl upsert dA)).map dkey = dictKeys (B.foldl upsert dA) := by
    unfold dictVals dictKeys
    rw [List.map_map]
    exact List.map_congr_left (fun p hp => (hinv1 p hp).symm)
  have hF7 : (M.map dkey).Nodup := by
    have h1 := hMperm.map dkey
    rw [hvalskeys] at h1
    exact h1.nodup_iff.mpr hnd1
  have hF6 : ∀ m ∈ M, alistGet (B.foldl upsert dA) (dkey m) = some m := by
    intro m hm
    obtain ⟨p, hp, hps⟩ := List.mem_map.mp (hMperm.subset hm)
    rcases p with ⟨k0, v0⟩
    simp only at hps
    subst hps
    have hk0 : k0 = dkey v0 := hinv1 _ hp
    exact alistGet_of_mem_nodup hnd1 (hk0 ▸ hp)
  obtain ⟨ddU2, fresh2, hsplit2, hkeys2, hfkeys2⟩ := foldl_upsert_decomp M dA
  obtain ⟨ddU1, fresh1, hsplit1, hkeys1, hfkeys1⟩ := foldl_upsert_decomp B dA
  have hvalU : dictVals ddU2 = dictVals ddU1 := by
    apply vals_eq_of_same_keys_get ddU2 ddU1 (hkeys2.trans hkeys1.symm) ?_ (hkeys2 ▸ hndA)
    intro k
    by_cases hk : k ∈ dictKeys dA
    · obtain ⟨v2, hv2⟩ := alistGet_isSome_of_mem (show k ∈ dictKeys ddU2 from hkeys2 ▸ hk)
      obtain ⟨v1, hv1⟩ := alistGet_isSome_of_mem (show k ∈ dictKeys ddU1 from hkeys1 ▸ hk)
      have h2 : alistGet (M.foldl upsert dA) k = some v2 := by
        rw [hsplit2]
        exact alistGet_append_left _ hv2
      have h1 : alistGet (B.foldl upsert dA) k = some v1 := by
        rw [hsplit1]
        exact alistGet_append_left _ hv1
      have hvv : v2 = v1 := Option.some.inj ((h2.symm.trans (hget k)).trans h1)
      rw [hv2, hv1, hvv]
    · rw [alistGet_eq_none_iff.mpr (show k ∉ dictKeys ddU2 from hkeys2 ▸ hk),
        alistGet_eq_none_iff.mpr (show k ∉ dictKeys ddU1 from hkeys1 ▸ hk)]
  have hfresh2 : dictVals fresh2 =
      M.filter (fun e => decide (dkey e ∉ dictKeys dA)) := by
    apply @list_eq_of_map_eq_det (alistGet (B.foldl upsert dA))
    · have hm2 : (dictVals fresh2).map dkey = dictKeys fresh2 := by
        unfold dictVals dictKeys
        rw [List.map_map]
        apply List.map_congr_left
        intro p hp
        exact (hinv2 p (by rw [hsplit2]; exact List.mem_append_right _ hp)).symm
      rw [hm2, hfkeys2, freshKeys_of_nodup _ hF7, List.filter_map]
      rfl
    · intro x hx
      obtain ⟨p, hp, hps⟩ := List.mem_map.mp hx
      rcases p with ⟨k0, v0⟩
      simp only at hps
      subst hps
      have hpd : (k0, v0) ∈ M.foldl upsert dA := by
        rw [hsplit2]
        exact List.mem_append_right _ hp
      have hk0 : k0 = dkey v0 := hinv2 _ hpd
      rw [← hget (dkey v0)]
      exact alistGet_of_mem_nodup hnd2 (hk0 ▸ hpd)
    · intro x hx
      exact hF6 x (List.mem_filter.mp hx).1
  have hfresh1 : dictVals fresh1 =
      (dictVals (B.foldl upsert dA)).filter (fun e => decide (dkey e ∉ dictKeys dA)) := by
    have hv1 : dictVals (B.foldl upsert dA) = dictVals ddU1 ++ dictVals fresh1 := by
      rw [hsplit1]
      unfold dictVals
      rw [List.map_append]
    rw [hv1, List.filter_append]
    have hU1 : (dictVals ddU1).filter (fun e => decide (dkey e ∉ dictKeys dA)) = [] := by
      rw [List.filter_eq_nil_iff]
      intro x hxv
      obtain ⟨p, hp, hps⟩ := List.mem_map.mp hxv
      have hpd : p ∈ B.foldl upsert dA := by
        rw [hsplit1]
        exact List.mem_append_left _ hp
      have hmem : dkey x ∈ dictKeys dA := by
        rw [← hps, ← hinv1 p hpd, ← hkeys1]
        exact List.mem_map_of_mem Prod.fst hp
      simp [hmem]
    have hS1 : (dictVals fresh1).filter (fun e => decide (dkey e ∉ dictKeys dA)) =
        dictVals fresh1 := by
      rw [List.filter_eq_self]
      intro x hxv
      obtain ⟨p, hp, hps⟩ := List.mem_map.mp hxv
      have hpd : p ∈ B.foldl upsert dA := by
        rw [hsplit1]
        exact List.mem_append_right _ hp
      have hpk : p.1 ∈ dictKeys fresh1 := List.mem_map_of_mem Prod.fst hp
      rw [hfkeys1] at hpk
      have hnot := mem_freshKeys_not_mem hpk
      rw [hinv1 p hpd, hps] at hnot
      simp [hnot]
    rw [hU1, hS1]
    rfl
  have hsplitv2 : dictVals (M.foldl upsert dA) = dictVals ddU2 ++ dictVals fresh2 := by
    rw [hsplit2]
    unfold dictVals
    rw [List.map_append]
  have hsplitv1 : dictVals (B.foldl upsert dA) = dictVals ddU1 ++ dictVals fresh1 := by
    rw [hsplit1]
    unfold dictVals
    rw [List.map_append]
  rw [hsplitv2, List.filter_append, hvalU, hfresh2]
  conv_rhs => rw [hsplitv1, List.filter_append]
  congr 1
  have hcomm : ∀ (l : List HistoryItem) (p q2 : HistoryItem → Bool),
      l.filter (fun a => p a && q2 a) = l.filter (fun a => q2 a && p a) :=
    fun l p q2 => List.filter_congr (fun a _ => Bool.and_comm _ _)
  rw [List.filter_filter]
  rw [show dictVals fresh1 =
      (dictVals (B.foldl upsert dA)).filter (fun e => decide (dkey e ∉ dictKeys dA))
    from hfresh1]
  rw [List.filter_filter, hcomm]
  rw [show ∀ l : List HistoryItem,
      l.filter (fun a => decide (dkey a ∉ dictKeys dA) && decide (skey a = g)) =
      (l.filter (fun e => decide (skey e = g))).filter
        (fun a => decide (dkey a ∉ dictKeys dA))
    from fun l => (List.filter_filter _ _).symm]
  rw [hMstable g]
  rw [List.filter_filter, hcomm]

/-! ### Claim C1: idempotence of the merge -/

/-- C1 (confirmed): re-running the merge with its own result as the incoming
list leaves the result unchanged.  The clock string is assumed to carry no
surrounding whitespace (true of every value now_utc_iso_ms can produce), which
makes the per-item normalization idempotent. -/
theorem C1_merge_history_items_idempotent : ∀ (now : String) (L D : List RawVal) (c : String),
    pyStrip now = now →
    merge_history_items now L ((merge_history_items now L D c).map RawVal.dict) c =
      merge_history_items now L D c := by
  intro now L D c hnow
  have hcand2 : candidatesOf now (safe_int_yyyymmdd c)
      (L ++ (merge_history_items now L D c).map RawVal.dict) =
      candidatesOf now (safe_int_yyyymmdd c) L ++ merge_history_items now L D c := by
    unfold candidatesOf
    rw [List.filterMap_append]
    congr 1
    exact filterMap_of_all_some (merge_mem_cand_fix hnow)
  have hcand1 : candidatesOf now (safe_int_yyyymmdd c) (L ++ D) =
      candidatesOf now (safe_int_yyyymmdd c) L ++ candidatesOf now (safe_int_yyyymmdd c) D := by
    unfold candidatesOf
    rw [List.filterMap_append]
  set A := candidatesOf now (safe_int_yyyymmdd c) L with hA
  set B := candidatesOf now (safe_int_yyyymmdd c) D with hB
  set M := merge_history_items now L D c with hM
  have hdictsplit : ∀ X : List HistoryItem, dictOf (A ++ X) = X.foldl upsert (dictOf A) := by
    intro X
    unfold dictOf
    rw [List.foldl_append]
  have hMeq : M = pySort (dictVals (B.foldl upsert (dictOf A))) := by
    rw [hM]
    show merge_history_items now L D c = _
    unfold merge_history_items
    rw [hcand1, hdictsplit]
  have hndA : (dictKeys (dictOf A)).Nodup := dictKeys_foldl_nodup A [] (by simp [dictKeys])
  have hinvA : ∀ p ∈ dictOf A, p.1 = dkey p.2 := pair_inv_foldl A [] (by simp)
  have hMperm : M.Perm (dictVals (B.foldl upsert (dictOf A))) := by
    rw [hMeq]
    exact pySort_perm _
  have hMstable : ∀ g : SortKey, M.filter (fun e => decide (skey e = g)) =
      (dictVals (B.foldl upsert (dictOf A))).filter (fun e => decide (skey e = g)) := by
    intro g
    rw [hMeq]
    exact pySort_filter_class g _
  show merge_history_items now L (M.map RawVal.dict) c = M
  unfold merge_history_items
  rw [hcand2, hdictsplit]
  apply sorted_eq_of_class_filters _ _ (pySort_sorted _) ?_ ?_
  · rw [hMeq]
    exact pySort_sorted _
  · intro g
    rw [pySort_filter_class g, hMstable g]
    exact vals_class_filter_after_refeed hndA hinvA hMperm hMstable g

/-- C1 witness: idempotence at a concrete clock, ledger and delta. -/
theorem C1_merge_history_items_idempotent_witness :
    pyStrip nowA = nowA ∧
    merge_history_items nowA [.dict sampleNewA]
      ((merge_history_items nowA [.dict sampleNewA] [.dict sampleModB, .dict sampleJunk]
        "20210101").map RawVal.dict) "20210101" =
      merge_history_items nowA [.dict sampleNewA] [.dict sampleModB, .dict sampleJunk]
        "20210101" :=
  ⟨by decide,
   C1_merge_history_items_idempotent nowA [.dict sampleNewA]
     [.dict sampleModB, .dict sampleJunk] "20210101" (by decide)⟩
